import Mathlib

/-!
Verification development for the Elkyn/db storage engine (`src/antler.rs`).

The Rust source is shallowly embedded:
* machine integers are `Nat` with explicit `% 2 ^ w` at every wrapping
  operation;
* byte strings (`&[u8]`, `Vec<u8>`) are `List Nat` whose elements are
  `< 256` (enforced by well-formedness hypotheses where it matters);
* `io::Result` values are `Except Unit` / `Option`;
* loops whose trip count is bounded by the input length are written with a
  structural fuel argument so that every definition evaluates by `decide`;
  the top-level wrappers always pass enough fuel.

The development has four layers, each translated from the named functions
of `src/antler.rs`:
1. primitives: `crc32`, `xxhash`, the bloom filter;
2. the byte-level WAL replay (`StoreInner::replay_wal`, `GroupCommitWAL::sync_now`);
3. the byte-level segment writer/reader (`SegmentWriter::add`/`finish`,
   `Store::get_from_segment`, `Store::scan_segment`, `Segment::open`);
4. the record-level store model (`Store::set/get/delete/delete_subtree/flush`,
   `Store::flush_memtable_locked`, `Store::open`), in which segments carry
   their decoded record lists (the byte round trip is established in
   layer 3).
-/

deriving instance DecidableEq for Except

namespace Antler

/-- Little-endian decoding of a byte list: `u32::from_le_bytes` /
`u64::from_le_bytes` on the taken slice. -/
def leNat (bs : List Nat) : Nat := bs.foldr (fun b acc => b + 256 * acc) 0

/-- Little-endian 4-byte encoding, `u32::to_le_bytes` (value taken mod 2^32). -/
def le4 (n : Nat) : List Nat :=
  [n % 256, n / 256 % 256, n / 256 ^ 2 % 256, n / 256 ^ 3 % 256]

/-- Little-endian 8-byte encoding, `u64::to_le_bytes` (value taken mod 2^64). -/
def le8 (n : Nat) : List Nat :=
  [n % 256, n / 256 % 256, n / 256 ^ 2 % 256, n / 256 ^ 3 % 256,
   n / 256 ^ 4 % 256, n / 256 ^ 5 % 256, n / 256 ^ 6 % 256, n / 256 ^ 7 % 256]

/-- Models `Read::read_exact` on an in-memory stream: take `n` bytes or fail. -/
def readExact (n : Nat) (bs : List Nat) : Option (List Nat × List Nat) :=
  if n ≤ bs.length then some (bs.take n, bs.drop n) else none

/-- Byte-wise lexicographic strict order on byte strings; this is the order
`Ord` gives `&[u8]` and (via UTF-8) `String` in Rust. -/
def ltB : List Nat → List Nat → Bool
  | [], [] => false
  | [], _ :: _ => true
  | _ :: _, [] => false
  | a :: as_, b :: bs => if a < b then true else if b < a then false else ltB as_ bs

/-- Reflexive companion of `ltB`: `x ≤ y` iff `¬ y < x`. -/
def leB (x y : List Nat) : Bool := ! ltB y x

/-- One iteration of the inner loop of `crc32` in `src/antler.rs`
(`crc = if crc & 1 != 0 { (crc >> 1) ^ 0xedb88320 } else { crc >> 1 }`). -/
def crcStep (c : Nat) : Nat := if c % 2 = 1 then (c / 2) ^^^ 0xedb88320 else c / 2

/-- Body of the per-byte loop of `crc32`: xor the byte in, then eight shift
steps (`for _ in 0..8`). -/
def crcByte (crc b : Nat) : Nat :=
  crcStep (crcStep (crcStep (crcStep (crcStep (crcStep (crcStep (crcStep (crc ^^^ b))))))))

/-- CRC-32 as implemented by `fn crc32` in `src/antler.rs`: init `0xffffffff`,
reflected polynomial `0xedb88320`, final xor `0xffffffff`. -/
def crc32 (data : List Nat) : Nat := (data.foldl crcByte 0xffffffff) ^^^ 0xffffffff

/-- Chunks of (at most) eight bytes, as produced by `data.chunks(8)`. -/
def chunks8 : List Nat → List (List Nat)
  | [] => []
  | a1 :: a2 :: a3 :: a4 :: a5 :: a6 :: a7 :: a8 :: rest =>
      [a1, a2, a3, a4, a5, a6, a7, a8] :: chunks8 rest
  | l => [l]

/-- The `val` accumulation inside `fn xxhash`: `val |= (b as u64) << (i * 8)`. -/
def chunkVal (chunk : List Nat) : Nat :=
  (List.range chunk.length).foldl (fun v i => v ||| ((chunk.getD i 0) <<< (i * 8))) 0

/-- One chunk step of `fn xxhash`: wrapping multiply, wrapping add, then the
rotation `(h << 31) | (h >> 33)`, all on 64-bit values. -/
def xxStep (h v : Nat) : Nat :=
  let h1 := (h * 0x9e3779b97f4a7c15 % 2 ^ 64 + v) % 2 ^ 64
  ((h1 <<< 31) % 2 ^ 64) ||| (h1 >>> 33)

/-- The seeded 64-bit hash `fn xxhash` of `src/antler.rs`. -/
def xxhash (data : List Nat) (seed : Nat) : Nat :=
  (chunks8 data).foldl (fun h c => xxStep h (chunkVal c)) ((seed + data.length) % 2 ^ 64)

/-- The in-memory `struct BloomFilter`: packed bit bytes plus the two
parameters stored with it. -/
structure BloomF where
  bits : List Nat
  bitCount : Nat
  hashCount : Nat
deriving DecidableEq

/-- Constructor `BloomFilter::new`: `⌈bit_count/8⌉` zero bytes. -/
def bloomNew (bitCount hashCount : Nat) : BloomF :=
  { bits := List.replicate ((bitCount + 7) / 8) 0, bitCount := bitCount, hashCount := hashCount }

/-- The bit-set statement `bits[hash/8] |= 1 << (hash%8)` of `BloomFilter::add`. -/
def setBitByte (bits : List Nat) (pos : Nat) : List Nat :=
  bits.set (pos / 8) ((bits.getD (pos / 8) 0) ||| (1 <<< (pos % 8)))

/-- The bit-test expression `bits[hash/8] & (1 << (hash%8)) != 0` of
`BloomFilter::might_contain`, as a `testBit` of the addressed byte. -/
def getBitB (bits : List Nat) (pos : Nat) : Bool :=
  Nat.testBit (bits.getD (pos / 8) 0) (pos % 8)

/-- `BloomFilter::add`: set the bit `xxhash(key, i) % bit_count` for every
`i < hash_count`. -/
def bloomAdd (bf : BloomF) (key : List Nat) : BloomF :=
  let newBits := (List.range bf.hashCount).foldl
    (fun bs i => setBitByte bs (xxhash key i % bf.bitCount)) bf.bits
  { bf with bits := newBits }

/-- `BloomFilter::might_contain`: test the same bit positions; the Rust test
`bits[hash/8] & (1 << (hash%8)) == 0` is `Nat.testBit` of the byte. -/
def might_contain (bf : BloomF) (key : List Nat) : Bool :=
  (List.range bf.hashCount).all fun i => getBitB bf.bits (xxhash key i % bf.bitCount)

/-! ### Byte-level WAL replay (`StoreInner::replay_wal`) -/

/-- The `enum MemValue` of the store, with byte-string values, as replay
builds it (`String::from_utf8_lossy` is the identity embedding on the valid
UTF-8 the WAL writer produced, so keys and values are kept as byte strings). -/
inductive BMemValue where
  | Scalar : List Nat → Nat → BMemValue
  | PointTomb : Nat → BMemValue
deriving DecidableEq

/-- Insertion into the `BTreeMap` memtable: ordered by the byte order `ltB`,
replacing an existing binding of the same key. -/
def mtInsertB (k : List Nat) (v : BMemValue) :
    List (List Nat × BMemValue) → List (List Nat × BMemValue)
  | [] => [(k, v)]
  | e :: rest =>
      if ltB k e.1 then (k, v) :: e :: rest
      else if k = e.1 then (k, v) :: rest
      else e :: mtInsertB k v rest

/-- Insertion into the `HashMap` subtree-tombstone table: replace the binding
of `k` if present, append otherwise (iteration order is never observed). -/
def stInsertB (k : List Nat) (v : Nat) : List (List Nat × Nat) → List (List Nat × Nat)
  | [] => [(k, v)]
  | e :: rest => if k = e.1 then (k, v) :: rest else e :: stInsertB k v rest

/-- The mutable fields of `StoreInner` that `replay_wal` touches. -/
structure RState where
  seq : Nat
  memtable : List (List Nat × BMemValue)
  memtableSize : Nat
  subtombs : List (List Nat × Nat)
deriving DecidableEq

/-- Application of one CRC-checked record body, lines 624–671 of
`src/antler.rs`: short bodies (`len < 13` or `len < 13 + klen`) are skipped
without advancing `seq`; a `SET` whose value block does not fit is dropped
but still advances `seq` (the code falls through to the `seq` update), as
does an unknown `kind`. -/
def applyRecordBytes (st : RState) (record : List Nat) : RState :=
  if record.length < 13 then st
  else
    let seq := leNat (record.take 8)
    let kind := record.getD 8 0
    let klen := leNat ((record.drop 9).take 4)
    if record.length < 13 + klen then st
    else
      let key := (record.drop 13).take klen
      let st1 :=
        if kind = 1 then
          if 17 + klen ≤ record.length then
            let vlen := leNat ((record.drop (13 + klen)).take 4)
            if 17 + klen + vlen ≤ record.length then
              let val := (record.drop (17 + klen)).take vlen
              { st with memtable := mtInsertB key (.Scalar val seq) st.memtable,
                        memtableSize := st.memtableSize + key.length + val.length + 16 }
            else st
          else st
        else if kind = 2 then
          { st with memtable := mtInsertB key (.PointTomb seq) st.memtable }
        else if kind = 3 then
          { st with subtombs := stInsertB key seq st.subtombs }
        else st
      { st1 with seq := max st1.seq seq }

/-- One WAL frame read: `len (4 LE) | record (len) | crc32(record) (4 LE)`,
failing on a short read or a CRC mismatch — exactly the reads and check at
the top of the replay loop. -/
def parseFrame (bs : List Nat) : Option (List Nat × List Nat) :=
  match readExact 4 bs with
  | none => none
  | some (lenB, b1) =>
    match readExact (leNat lenB) b1 with
    | none => none
    | some (record, b2) =>
      match readExact 4 b2 with
      | none => none
      | some (crcB, b3) => if crc32 record = leNat crcB then some (record, b3) else none

/-- The replay loop of `StoreInner::replay_wal`: stop at the first frame that
cannot be read whole with a matching CRC, apply every earlier record. Each
loop iteration consumes at least 8 bytes, so fuel `length + 1` never runs out. -/
def replayLoop : Nat → List Nat → RState → RState
  | 0, _, st => st
  | fuel + 1, bs, st =>
    match parseFrame bs with
    | none => st
    | some (record, rest) => replayLoop fuel rest (applyRecordBytes st record)

/-- The 4-byte magic `"WAL2"`. -/
def walMagicB : List Nat := [87, 65, 76, 50]

/-- `StoreInner::replay_wal` on the file contents: a missing or wrong magic
means the WAL is treated as empty; otherwise run the frame loop. -/
def replayWal (bytes : List Nat) (st : RState) : RState :=
  match readExact 4 bytes with
  | none => st
  | some (m, rest) => if m = walMagicB then replayLoop (bytes.length + 1) rest st else st

/-- A WAL record as `GroupCommitWAL::sync_now` serialises it (the in-memory
`struct WALEntry`, with byte-string key and value; `value` is meaningful only
for `kind = 1`). -/
structure WRec where
  seq : Nat
  kind : Nat
  key : List Nat
  value : List Nat
deriving DecidableEq

/-- Record body layout written by `sync_now`:
`seq (8) | kind (1) | klen (4) | key | [vlen (4) | value]`, the value block
present only for `SET`. -/
def encRecW (e : WRec) : List Nat :=
  le8 e.seq ++ e.kind :: (le4 e.key.length ++ e.key ++
    (if e.kind = 1 then le4 e.value.length ++ e.value else []))

/-- A full WAL frame as written by `sync_now`. -/
def encFrame (e : WRec) : List Nat :=
  le4 (encRecW e).length ++ encRecW e ++ le4 (crc32 (encRecW e))

/-- Well-formedness of a WAL record: a kind the store writes, byte-valued
contents, and sizes inside the fixed-width fields. -/
def wfWRec (e : WRec) : Prop :=
  (e.kind = 1 ∨ e.kind = 2 ∨ e.kind = 3) ∧ e.seq < 2 ^ 64 ∧
    (∀ b ∈ e.key, b < 256) ∧ (∀ b ∈ e.value, b < 256) ∧
    17 + e.key.length + e.value.length < 2 ^ 32

/-- Reference application of one well-formed WAL record, following the spec's
replay clause: `SET` installs `Scalar(value, seq)`, `DEL_POINT` installs
`PointTomb(seq)`, `DEL_SUB` installs a subtree tombstone, and `seq` is
advanced to the record's `seq` when larger. -/
def applyEntry (st : RState) (e : WRec) : RState :=
  let st1 :=
    if e.kind = 1 then
      { st with memtable := mtInsertB e.key (.Scalar e.value e.seq) st.memtable,
                memtableSize := st.memtableSize + e.key.length + e.value.length + 16 }
    else if e.kind = 2 then
      { st with memtable := mtInsertB e.key (.PointTomb e.seq) st.memtable }
    else
      { st with subtombs := stInsertB e.key e.seq st.subtombs }
  { st1 with seq := max st1.seq e.seq }

/-! ### Byte-level segments (`SegmentWriter`, `get_from_segment`, `scan_segment`) -/

/-- The 7-byte segment magic `"ELKYN03"`. -/
def segMagic : List Nat := [69, 76, 75, 89, 78, 48, 51]

/-- `BLOCK_SIZE` from `src/antler.rs`. -/
def BLOCK_SIZE : Nat := 4096

/-- A segment record as handed to `SegmentWriter::add` (kind 1 = `SET`,
kind 2 = `DEL_POINT`; tombstones carry an empty value). -/
structure SRec where
  kind : Nat
  key : List Nat
  value : List Nat
  seq : Nat
deriving DecidableEq

/-- The block record layout built in `SegmentWriter::add`:
`seq (8) | kind (1) | klen (4) | vlen (4) | key | value`. -/
def encRec (r : SRec) : List Nat :=
  le8 r.seq ++ r.kind :: (le4 r.key.length ++ le4 r.value.length ++ r.key ++ r.value)

/-- Well-formedness of a segment record: byte-valued contents and lengths
that fit their 4-byte fields. -/
def wfRec (r : SRec) : Prop :=
  r.kind < 256 ∧ r.seq < 2 ^ 64 ∧ (∀ b ∈ r.key, b < 256) ∧ (∀ b ∈ r.value, b < 256) ∧
    r.key.length < 2 ^ 32 ∧ r.value.length < 2 ^ 32

/-- The mutable fields of `struct SegmentWriter` that determine the data
blocks and the index (the bloom bits, `seq_low` and `key_count` are written
after `index_start` and never read back by `lookup`/`scan`, so they are not
carried here). -/
structure WState where
  fileBytes : List Nat
  written : Nat
  curBlock : List Nat
  index : List (List Nat × Nat)
  seqHigh : Nat
deriving DecidableEq

/-- `SegmentWriter::new`: magic written, `written = MAGIC.len()`. -/
def winit : WState :=
  { fileBytes := segMagic, written := 7, curBlock := [], index := [], seqHigh := 0 }

/-- `SegmentWriter::flush_block`. -/
def flushBlock (w : WState) : WState :=
  if w.curBlock = [] then w
  else { w with fileBytes := w.fileBytes ++ w.curBlock,
                written := w.written + w.curBlock.length, curBlock := [] }

/-- `SegmentWriter::add`: flush the block first when the record would push it
over `BLOCK_SIZE`; a record entering an empty block contributes an index
entry `(key, written)`. -/
def addRec (w : WState) (r : SRec) : WState :=
  let rec_ := encRec r
  let w1 := if BLOCK_SIZE < w.curBlock.length + rec_.length then flushBlock w else w
  let w2 := if w1.curBlock = [] then { w1 with index := w1.index ++ [(r.key, w1.written)] } else w1
  { w2 with curBlock := w2.curBlock ++ rec_, seqHigh := max w2.seqHigh r.seq }

/-- The fields of `struct Segment` that `get_from_segment` / `scan_segment`
read: the file bytes of the data-block region (magic included), the parsed
index, `index_start`, `seq_high`. -/
structure BSeg where
  fileBytes : List Nat
  index : List (List Nat × Nat)
  indexStart : Nat
  seqHigh : Nat
deriving DecidableEq

/-- `SegmentWriter::finish`: flush the last block and capture `index_start`.
(The index bytes, bloom bits and footer are appended at offsets at or past
`index_start` and are never read through the block cache by `lookup`/`scan`,
so the byte model keeps the file up to `index_start`.) -/
def finishW (w : WState) : BSeg :=
  let w1 := flushBlock w
  { fileBytes := w1.fileBytes, index := w1.index, indexStart := w1.written, seqHigh := w1.seqHigh }

/-- A segment built from a record sequence, as `flush_memtable_locked` does. -/
def buildSeg (entries : List SRec) : BSeg := finishW (entries.foldl addRec winit)

/-- Result of `seg.index.binary_search_by_key(..)` followed by the
`Ok(i) / Err(i if i > 0) / Err(0)` adjustment of `get_from_segment`: on the
strictly sorted index this is the greatest `i` with `index[i].key ≤ key`,
none when every index key exceeds `key` (computed here by a linear pass). -/
def idxLookup : List (List Nat × Nat) → List Nat → Option Nat
  | [], _ => none
  | e :: rest, key =>
      if ltB key e.1 then none
      else
        match idxLookup rest key with
        | some j => some (j + 1)
        | none => some 0

/-- `BlockCache::get_or_load` backed by the file bytes: read exactly `size`
bytes at `offset`, failing past end of file. -/
def loadBlock (file : List Nat) (off size : Nat) : Option (List Nat) :=
  if off + size ≤ file.length then some ((file.drop off).take size) else none

/-- The block-scan loop of `Store::get_from_segment` (lines 380–432): walk
records while more than 8 bytes remain, with the source's exact bounds
checks, and return the first `SET` whose key equals the probe. One record is
consumed per fuel unit. -/
def parseLookup : Nat → List Nat → List Nat → Option (List Nat × Nat)
  | 0, _, _ => none
  | fuel + 1, bs, key =>
    if bs.length ≤ 8 then none
    else
      let seq := leNat (bs.take 8)
      match bs.drop 8 with
      | [] => none
      | rt :: bs2 =>
        if bs2.length < 4 then none
        else
          let klen := leNat (bs2.take 4)
          let bs3 := bs2.drop 4
          if bs3.length < 4 then none
          else
            let vlen := leNat (bs3.take 4)
            let bs4 := bs3.drop 4
            if bs4.length < klen then none
            else
              let k := bs4.take klen
              let bs5 := bs4.drop klen
              if k = key ∧ rt = 1 then
                if bs5.length < vlen then none else some (bs5.take vlen, seq)
              else parseLookup fuel (bs5.drop vlen) key

/-- `Store::get_from_segment`: index lookup, block bounds from the next index
entry or `index_start`, cache load, block scan. -/
def lookupSeg (s : BSeg) (key : List Nat) : Except Unit (Option (List Nat × Nat)) :=
  match idxLookup s.index key with
  | none => .ok none
  | some i =>
    let off := (s.index.getD i ([], 0)).2
    let nxt := if i + 1 < s.index.length then (s.index.getD (i + 1) ([], 0)).2 else s.indexStart
    match loadBlock s.fileBytes off (nxt - off) with
    | none => .error ()
    | some blk => .ok (parseLookup (blk.length + 1) blk key)

/-- The block-scan loop of `Store::scan_segment` (lines 447–488), with its
combined `pos + 8` and `pos + klen + vlen` bounds checks; `SET` records whose
key lies in `[start, stop)` are collected in file order. -/
def parseScan : Nat → List Nat → List Nat → List Nat → List (List Nat × List Nat × Nat)
  | 0, _, _, _ => []
  | fuel + 1, bs, start, stop =>
    if bs.length ≤ 8 then []
    else
      let seq := leNat (bs.take 8)
      match bs.drop 8 with
      | [] => []
      | rt :: bs2 =>
        if bs2.length < 8 then []
        else
          let klen := leNat (bs2.take 4)
          let bs3 := bs2.drop 4
          let vlen := leNat (bs3.take 4)
          let bs4 := bs3.drop 4
          if bs4.length < klen + vlen then []
          else
            let k := bs4.take klen
            let bs5 := bs4.drop klen
            let rest := parseScan fuel (bs5.drop vlen) start stop
            if leB start k ∧ ltB k stop ∧ rt = 1 then (k, bs5.take vlen, seq) :: rest else rest

/-- The index iteration of `Store::scan_segment`: only index entries whose
own key lies in `[start, stop)` have their block loaded; the block end is the
offset of the first index entry with a larger key, else `index_start`. -/
def scanGo (file : List Nat) (fullIndex : List (List Nat × Nat)) (iStart : Nat)
    (start stop : List Nat) :
    List (List Nat × Nat) → Except Unit (List (List Nat × List Nat × Nat))
  | [] => .ok []
  | e :: rest =>
    if leB start e.1 ∧ ltB e.1 stop then
      let nxt := (((fullIndex.find? fun x => ltB e.1 x.1).map fun x => x.2).getD iStart)
      match loadBlock file e.2 (nxt - e.2) with
      | none => .error ()
      | some blk =>
        match scanGo file fullIndex iStart start stop rest with
        | .error er => .error er
        | .ok l => .ok (parseScan (blk.length + 1) blk start stop ++ l)
    else scanGo file fullIndex iStart start stop rest

/-- `Store::scan_segment` over the half-open byte-string range `[start, stop)`. -/
def scanSeg (s : BSeg) (start stop : List Nat) :
    Except Unit (List (List Nat × List Nat × Nat)) :=
  scanGo s.fileBytes s.index s.indexStart start stop s.index

/-- Encoded bytes of one data block's records. -/
def encGroup (g : List SRec) : List Nat := (g.map encRec).flatten

/-- Encoded bytes of a sequence of data blocks. -/
def groupsBytes (gs : List (List SRec)) : List Nat := (gs.map encGroup).flatten

/-- The key a block is indexed under: the key of its first record. -/
def hdK (g : List SRec) : List Nat := (g.headD ⟨0, [], [], 0⟩).key

/-- Index entries generated for a sequence of blocks laid out from `base`:
each block contributes `(first key, offset)`. -/
def idxOfGroups (base : Nat) : List (List SRec) → List (List Nat × Nat)
  | [] => []
  | g :: gs => (hdK g, base) :: idxOfGroups (base + (encGroup g).length) gs

/-- Writer-state characterisation: the records added so far split into the
flushed blocks `gs` and the current (unflushed) block `cur`; an index entry
exists for `cur` only once it holds a record. -/
def WInv (gs : List (List SRec)) (cur : List SRec) (w : WState) : Prop :=
  w.fileBytes = segMagic ++ groupsBytes gs ∧
    w.written = 7 + (groupsBytes gs).length ∧
    w.curBlock = encGroup cur ∧
    w.index = idxOfGroups 7 (gs ++ if cur = [] then [] else [cur]) ∧
    (∀ g ∈ gs, g ≠ [])

/-- What the block scan of `get_from_segment` computes on a decoded block:
the first `SET` record matching the key. -/
def findLk (g : List SRec) (key : List Nat) : Option (List Nat × Nat) :=
  (g.find? fun r => r.key == key && r.kind == 1).map fun r => (r.value, r.seq)

/-- What the block scan of `scan_segment` computes on a decoded block: the
`SET` records with key in `[start, stop)`, in block order. -/
def scanFilter (g : List SRec) (start stop : List Nat) : List (List Nat × List Nat × Nat) :=
  (g.filter fun r => leB start r.key && ltB r.key stop && r.kind == 1).map
    fun r => (r.key, r.value, r.seq)

/-! ### `Segment::open` and the segment-loading loop of `Store::open` -/

/-- The index-parsing loop of `Segment::open` (lines 809–835):
`klen (4) | offset (8) | key (klen)`, stopping at a short entry. -/
def parseIndex : Nat → List Nat → List (List Nat × Nat)
  | 0, _ => []
  | fuel + 1, bs =>
    if bs.length < 12 then []
    else
      let klen := leNat (bs.take 4)
      let offset := leNat ((bs.drop 4).take 8)
      let bs1 := bs.drop 12
      if bs1.length < klen then []
      else ((bs1.take klen, offset)) :: parseIndex fuel (bs1.drop klen)

/-- `Segment::open` on the file bytes: magic check, footer decode, index
parse. Failure (`io::Error`) is a short file, a failed seek, or a wrong
magic — the latter is the `"Bad magic"` `InvalidData` error. -/
def segOpenBytes (bs : List Nat) : Except Unit BSeg :=
  if bs.length < 7 then .error ()
  else if bs.take 7 ≠ segMagic then .error ()
  else if bs.length < 32 then .error ()
  else
    let footer := bs.drop (bs.length - 32)
    let seqHigh := leNat ((footer.drop 8).take 8)
    let indexSize := leNat ((footer.drop 20).take 4)
    let bloomSize := leNat ((footer.drop 24).take 4)
    if bs.length < 32 + bloomSize + indexSize then .error ()
    else
      let indexStart := bs.length - 32 - indexSize - bloomSize
      let indexData := (bs.drop (bs.length - 32 - bloomSize - indexSize)).take indexSize
      .ok { fileBytes := bs, index := parseIndex (indexData.length + 1) indexData,
            indexStart := indexStart, seqHigh := seqHigh }

/-- One manifest entry paired with the bytes of the segment file it names
(`none` when the file is missing). -/
structure ManifestFile where
  seqHigh : Nat
  level : Nat
  fileBytes : Option (List Nat)
deriving DecidableEq

/-- The segment-loading loop of `Store::open` (lines 163–179): each
manifest-listed segment is opened with `if let Ok(seg)` — a failing
`Segment::open` is silently skipped — and `seq` is raised to the largest
`seq_high` among the segments that did open. -/
def openSegsStep (acc : List BSeg × List BSeg × List BSeg × Nat) (e : ManifestFile) :
    List BSeg × List BSeg × List BSeg × Nat :=
  match e.fileBytes with
  | none => acc
  | some bytes =>
    match segOpenBytes bytes with
    | .error _ => acc
    | .ok seg =>
      let acc1 :=
        if e.level = 0 then (acc.1 ++ [seg], acc.2.1, acc.2.2.1, acc.2.2.2)
        else if e.level = 1 then (acc.1, acc.2.1 ++ [seg], acc.2.2.1, acc.2.2.2)
        else if e.level = 2 then (acc.1, acc.2.1, acc.2.2.1 ++ [seg], acc.2.2.2)
        else acc
      (acc1.1, acc1.2.1, acc1.2.2.1, max acc1.2.2.2 seg.seqHigh)

/-- `Store::open` from a manifest listing and the WAL bytes: load whatever
segments open, then replay the WAL on top. Apart from filesystem failures,
the function always returns `ok` — neither a corrupt segment nor a corrupt
WAL interior aborts it. -/
def storeOpenModel (entries : List ManifestFile) (walBytes : List Nat) :
    Except Unit (List BSeg × List BSeg × List BSeg × RState) :=
  let loaded := entries.foldl openSegsStep ([], [], [], 0)
  .ok (loaded.1, loaded.2.1, loaded.2.2.1,
       replayWal walBytes { seq := loaded.2.2.2, memtable := [], memtableSize := 0, subtombs := [] })

/-! ### The record-level store model (`Store`) -/

/-- UTF-8 encoding of one character, as Rust's `str::as_bytes` exposes it. -/
def charUtf8 (c : Char) : List Nat :=
  let n := c.toNat
  if n < 0x80 then [n]
  else if n < 0x800 then [0xC0 + n / 64, 0x80 + n % 64]
  else if n < 0x10000 then [0xE0 + n / 4096, 0x80 + n / 64 % 64, 0x80 + n % 64]
  else [0xF0 + n / 262144, 0x80 + n / 4096 % 64, 0x80 + n / 64 % 64, 0x80 + n % 64]

/-- The UTF-8 bytes of a string (`str::as_bytes`). -/
def utf8Bytes (s : String) : List Nat := s.data.flatMap charUtf8

/-- Rust's `str::len` — the UTF-8 byte length. -/
def strLen (s : String) : Nat := (utf8Bytes s).length

/-- Rust's `String` order (byte-lexicographic, which on UTF-8 coincides with
code-point-lexicographic order). -/
def ltStr (a b : String) : Bool := ltB (a.data.map Char.toNat) (b.data.map Char.toNat)

/-- `str::starts_with` on strings: character-level prefix, which on UTF-8
coincides with the byte-level prefix test. -/
def strHasPrefixB (s pfx : String) : Bool := List.isPrefixOf pfx.data s.data

/-- `path.ends_with('/')`. -/
def endsSlash (s : String) : Bool := s.data.getLast? == some '/'

/-- Index of the last occurrence of a character, as `str::rfind` computes it
(positions counted in characters; `'/'` is a one-byte character, so the byte
index of `rfind('/')` addresses the same split point). -/
def lastIdxOf (c : Char) : List Char → Option Nat
  | [] => none
  | a :: as_ =>
    match lastIdxOf c as_ with
    | some j => some (j + 1)
    | none => if a = c then some 0 else none

/-- `fn parent_path`: the text before the last `'/'`, none when there is no
slash or the only slash is leading. -/
def parent_path (path : String) : Option String :=
  match lastIdxOf '/' path.data with
  | none => none
  | some idx => if idx > 0 then some ⟨path.data.take idx⟩ else none

/-- The `enum MemValue` of `StoreInner` (string-keyed layer). -/
inductive MemValue where
  | Scalar : String → Nat → MemValue
  | PointTomb : Nat → MemValue
deriving DecidableEq

/-- The `seq` carried by a memtable value. -/
def mvSeq : MemValue → Nat
  | .Scalar _ s => s
  | .PointTomb s => s

/-- A decoded segment record at the store layer. -/
structure ARec where
  key : String
  kind : Nat
  value : String
  seq : Nat
deriving DecidableEq

/-- A segment as the store keeps it after `SegmentWriter::finish` or
`Segment::open`: its decoded records in key order, `seq_high`, and its bloom
filter. (Layer 3 establishes that the byte representation written by the
segment writer decodes back to exactly these records.) -/
structure ASeg where
  records : List ARec
  seqHigh : Nat
  bloom : Option BloomF
deriving DecidableEq

/-- A WAL entry as `Store` appends it (`struct WALEntry`). -/
structure AWalE where
  seq : Nat
  kind : Nat
  key : String
  value : Option String
deriving DecidableEq

/-- The state behind `Store`: `StoreInner` plus the manifest entry list and
the append-order WAL content (pending buffer and file taken together; group
commit only delays durability, not content). Every manifest entry written by
this core is level 0, so the manifest is kept as its segment list. -/
structure StoreSt where
  seq : Nat
  memtable : List (String × MemValue)
  memtableSize : Nat
  segmentsL0 : List ASeg
  segmentsL1 : List ASeg
  segmentsL2 : List ASeg
  subtombs : List (String × Nat)
  manifest : List ASeg
  wal : List AWalE
deriving DecidableEq

/-- `BTreeMap::insert` on the memtable: ordered by `ltStr`, replacing an
existing binding. -/
def mtInsert (k : String) (v : MemValue) : List (String × MemValue) → List (String × MemValue)
  | [] => [(k, v)]
  | e :: rest =>
      if ltStr k e.1 then (k, v) :: e :: rest
      else if k = e.1 then (k, v) :: rest
      else e :: mtInsert k v rest

/-- `BTreeMap::get` on the memtable. -/
def mtLookup (m : List (String × MemValue)) (k : String) : Option MemValue :=
  (m.find? fun e => e.1 == k).map fun e => e.2

/-- `HashMap::insert` on the subtree-tombstone table: replace or append
(iteration order is never observed — coverage is an existential scan). -/
def stInsert (k : String) (v : Nat) : List (String × Nat) → List (String × Nat)
  | [] => [(k, v)]
  | e :: rest => if k = e.1 then (k, v) :: rest else e :: stInsert k v rest

/-- `MEMTABLE_THRESHOLD` from `src/antler.rs`. -/
def MEMTABLE_THRESHOLD : Nat := 256 * 1024

/-- `Store::covered_by_subtomb`: some tombstone prefix covers the key with
`tomb_seq >= seq`. -/
def covered_by_subtomb (st : StoreSt) (key : String) (seq : Nat) : Bool :=
  st.subtombs.any fun e => strHasPrefixB key e.1 && decide (seq ≤ e.2)

/-- All segments in the read order of `Store::get`: L0, then L1, then L2. -/
def allSegs (st : StoreSt) : List ASeg := st.segmentsL0 ++ st.segmentsL1 ++ st.segmentsL2

/-- Record-level `Store::get_from_segment`: the first `SET` record with the
probed key (a flushed memtable holds each key at most once, and layer 3 shows
the block walk returns exactly this on such segments). -/
def segLookupA (seg : ASeg) (key : String) : Option (String × Nat) :=
  (seg.records.find? fun r => r.key == key && r.kind == 1).map fun r => (r.value, r.seq)

/-- The bloom gate of `Store::get`: a segment without a bloom is always
consulted. -/
def bloomOk (seg : ASeg) (path : String) : Bool :=
  match seg.bloom with
  | some b => might_contain b (utf8Bytes path)
  | none => true

/-- One segment step of the candidate loop in `Store::get`: keep the
uncovered hit with the strictly largest `seq`. -/
def stepSeg (st : StoreSt) (path : String) (acc : Option (String × Nat)) (seg : ASeg) :
    Option (String × Nat) :=
  if bloomOk seg path then
    match segLookupA seg path with
    | some (v, s) =>
      if covered_by_subtomb st path s = false then
        match acc with
        | none => some (v, s)
        | some (v0, s0) => if s0 < s then some (v, s) else some (v0, s0)
      else acc
    | none => acc
  else acc

/-- The segment fold of `Store::get`. -/
def segCandidate (st : StoreSt) (path : String) : Option (String × Nat) :=
  (allSegs st).foldl (stepSeg st path) none

/-- Record-level `Store::scan_segment` result on a segment: the `SET` records
with keys in `[start, stop)`. (The byte-level `scanSeg` of layer 3 also skips
whole blocks whose first key precedes `start`; that behaviour is settled at
the byte level, while the record-level store model only ever needs this
function for read-equivalence arguments that hold for any fixed scan.) -/
def scanA (seg : ASeg) (start stop : String) : List (String × String × Nat) :=
  (seg.records.filter fun r => (! ltStr r.key start) && ltStr r.key stop && r.kind == 1).map
    fun r => (r.key, r.value, r.seq)

/-- `BTreeMap::insert` on the subtree-merge tree of `get_subtree`. -/
def treeInsert (k : String) (v : String × Nat) :
    List (String × (String × Nat)) → List (String × (String × Nat))
  | [] => [(k, v)]
  | e :: rest =>
      if ltStr k e.1 then (k, v) :: e :: rest
      else if k = e.1 then (k, v) :: rest
      else e :: treeInsert k v rest

/-- `BTreeMap::get` on the subtree-merge tree. -/
def treeLookup (t : List (String × (String × Nat))) (k : String) : Option (String × Nat) :=
  (t.find? fun e => e.1 == k).map fun e => e.2

/-- The `.replace('"', "\\\"")` escaping of `tree_to_json`. -/
def escQ (s : String) : String :=
  ⟨(s.data.map fun c => if c = '"' then ['\\', '"'] else [c]).flatten⟩

/-- The relative key `&k[prefix.len()..]` (a byte slice at a UTF-8 prefix
boundary, hence a character drop). -/
def dropPfx (pfx s : String) : String := ⟨s.data.drop pfx.data.length⟩

/-- One `"rel":"value"` JSON member of `Store::tree_to_json`. -/
def jsonEntry (pfx : String) (e : String × (String × Nat)) : String :=
  "\"" ++ escQ (dropPfx pfx e.1) ++ "\":\"" ++ escQ e.2.1 ++ "\""

/-- `Store::tree_to_json`: the flat object, members in tree (key) order. -/
def tree_to_json (t : List (String × (String × Nat))) (pfx : String) : String :=
  "\x7b" ++ String.intercalate "," (t.map (jsonEntry pfx)) ++ "\x7d"

/-- `Store::get_subtree`: merge memtable scalars under the prefix with the
segment scans over `[prefix, prefix ++ "~")`, highest `seq` per key, skipping
records covered by subtree tombstones. -/
def get_subtree (st : StoreSt) (pfx : String) : Option String :=
  let t1 := st.memtable.foldl
    (fun t e =>
      if strHasPrefixB e.1 pfx then
        match e.2 with
        | .Scalar v s => if covered_by_subtomb st e.1 s = false then treeInsert e.1 (v, s) t else t
        | .PointTomb _ => t
      else t) []
  let t2 := (allSegs st).foldl
    (fun t seg =>
      (scanA seg pfx (pfx ++ "~")).foldl
        (fun t r =>
          if covered_by_subtomb st r.1 r.2.2 = false then
            match treeLookup t r.1 with
            | none => treeInsert r.1 r.2 t
            | some (_, s0) => if s0 < r.2.2 then treeInsert r.1 r.2 t else t
          else t) t) t1
  if t2 = [] then none else some (tree_to_json t2 pfx)

/-- `Store::get`: subtree dispatch on a trailing slash, else memtable first
(a present entry decides — covered scalars and point tombstones read as
none), else the max-`seq` uncovered segment candidate. -/
def Store.get (st : StoreSt) (path : String) : Option String :=
  if endsSlash path then get_subtree st path
  else
    match mtLookup st.memtable path with
    | some (.Scalar v s) => if covered_by_subtomb st path s = false then some v else none
    | some (.PointTomb _) => none
    | none => (segCandidate st path).map fun c => c.1

/-- The bloom filter built for a flushed segment: `SegmentWriter::new` uses
fixed parameters `(10000, 7)` and `add` feeds every record key. -/
def segBloomSpec (recs : List ARec) : BloomF :=
  recs.foldl (fun b r => bloomAdd b (utf8Bytes r.key)) (bloomNew 10000 7)

/-- The `seq_high` a segment writer accumulates over its records. -/
def segSeqHigh (recs : List ARec) : Nat := recs.foldl (fun a r => max a r.seq) 0

/-- The record `SegmentWriter::add` receives for one memtable entry during
`flush_memtable_locked`: a `SET` for a scalar, a `DEL_POINT` for a point
tombstone. -/
def mvToRec (e : String × MemValue) : ARec :=
  match e.2 with
  | .Scalar v s => { key := e.1, kind := 1, value := v, seq := s }
  | .PointTomb s => { key := e.1, kind := 2, value := "", seq := s }

/-- The segment a memtable flush produces: the memtable's records in key
order, the accumulated `seq_high`, and the writer's bloom filter. -/
def segOfMt (m : List (String × MemValue)) : ASeg :=
  { records := m.map mvToRec, seqHigh := segSeqHigh (m.map mvToRec),
    bloom := some (segBloomSpec (m.map mvToRec)) }

/-- `Store::flush_memtable_locked` at the record level: an empty memtable is
a no-op; otherwise the memtable becomes a new level-0 segment (records in
memtable key order), the manifest gains its entry, and the memtable is
cleared. The WAL sync moves no content in this model. -/
def flush_memtable (st : StoreSt) : StoreSt :=
  if st.memtable = [] then st
  else
    { st with segmentsL0 := st.segmentsL0 ++ [segOfMt st.memtable],
              manifest := st.manifest ++ [segOfMt st.memtable],
              memtable := [], memtableSize := 0 }

/-- The mutation part of `Store::set` once the parent check has passed:
allocate `seq`; with `replace_subtree` emit `DEL_SUB(path ++ "/")` and
`DEL_POINT(path)` at the same `seq`; then emit the `SET` and grow
`memtable_size` by `path.len() + value.len() + 16`. -/
def setCore (st : StoreSt) (path value : String) (replaceSub : Bool) : StoreSt :=
  let seq := st.seq + 1
  let st1 := { st with seq := seq }
  let st2 :=
    if replaceSub then
      { st1 with
          wal := st1.wal ++ [{ seq := seq, kind := 3, key := path ++ "/", value := none },
                             { seq := seq, kind := 2, key := path, value := none }],
          subtombs := stInsert (path ++ "/") seq st1.subtombs,
          memtable := mtInsert path (.PointTomb seq) st1.memtable }
    else st1
  { st2 with
      wal := st2.wal ++ [{ seq := seq, kind := 1, key := path, value := some value }],
      memtable := mtInsert path (.Scalar value seq) st2.memtable,
      memtableSize := st2.memtableSize + strLen path + strLen value + 16 }

/-- The body of `Store::set`: the mutations above, then the threshold check
that flushes the memtable. -/
def setBody (st : StoreSt) (path value : String) (replaceSub : Bool) : StoreSt :=
  let st3 := setCore st path value replaceSub
  if MEMTABLE_THRESHOLD ≤ st3.memtableSize then flush_memtable st3 else st3

/-- The guard of `Store::set`: the path has a parent and `get` on it returns
some. -/
def parentVisible (st : StoreSt) (path : String) : Bool :=
  match parent_path path with
  | some par => (Store.get st par).isSome
  | none => false

/-- `Store::set`: reject with `InvalidInput` when `get(parent_path(path))` is
some, else run the body. -/
def Store.set (st : StoreSt) (path value : String) (replaceSub : Bool) : Except Unit StoreSt :=
  if parentVisible st path then .error () else .ok (setBody st path value replaceSub)

/-- `Store::delete`: allocate `seq`, append the `DEL_POINT`, install the
point tombstone (the memtable size is not changed). -/
def Store.delete (st : StoreSt) (path : String) : StoreSt :=
  let seq := st.seq + 1
  { st with seq := seq,
            wal := st.wal ++ [{ seq := seq, kind := 2, key := path, value := none }],
            memtable := mtInsert path (.PointTomb seq) st.memtable }

/-- `Store::delete_subtree`: normalise the prefix to end with `'/'`, allocate
`seq`, append the `DEL_SUB`, record the tombstone. -/
def Store.delete_subtree (st : StoreSt) (pfx : String) : StoreSt :=
  let seq := st.seq + 1
  let p := if endsSlash pfx then pfx else pfx ++ "/"
  { st with seq := seq,
            wal := st.wal ++ [{ seq := seq, kind := 3, key := p, value := none }],
            subtombs := stInsert p seq st.subtombs }

/-- `Store::flush`: drain the memtable into a segment and sync the WAL. -/
def Store.flush (st : StoreSt) : StoreSt := flush_memtable st

/-- The mutations a host can issue against one store handle. -/
inductive Mut where
  | setM : String → String → Bool → Mut
  | delM : String → Mut
  | delSubM : String → Mut
  | flushM : Mut
deriving DecidableEq

/-- Issue one mutation; a rejected `set` leaves the store unchanged. -/
def runMut (st : StoreSt) : Mut → StoreSt
  | .setM p v rs =>
    match Store.set st p v rs with
    | .ok s => s
    | .error _ => st
  | .delM p => Store.delete st p
  | .delSubM p => Store.delete_subtree st p
  | .flushM => Store.flush st

/-- Issue a mutation sequence from a given state. -/
def runMutsFrom (st : StoreSt) (ms : List Mut) : StoreSt := ms.foldl runMut st

/-- The freshly opened empty store. -/
def initStore : StoreSt :=
  { seq := 0, memtable := [], memtableSize := 0, segmentsL0 := [], segmentsL1 := [],
    segmentsL2 := [], subtombs := [], manifest := [], wal := [] }

/-- Issue a mutation sequence against a fresh store. -/
def runMuts (ms : List Mut) : StoreSt := runMutsFrom initStore ms

/-- Reopening the store directory with the WAL file absent: `Store::open`
creates the store from the manifest alone — segments reload in manifest
order (all at level 0, the only level this core writes), `seq` is the largest
`seq_high`, and the memtable and subtree-tombstone table start empty because
`replay_wal` finds no file. -/
def reopenWithoutWal (st : StoreSt) : StoreSt :=
  { seq := st.manifest.foldl (fun a s => max a s.seqHigh) 0,
    memtable := [], memtableSize := 0,
    segmentsL0 := st.manifest, segmentsL1 := [], segmentsL2 := [],
    subtombs := [], manifest := st.manifest, wal := [] }

/-- Mutations that install no subtree tombstone: plain sets, point deletes,
flushes. -/
def plainMut : Mut → Bool
  | .setM _ _ rs => ! rs
  | .delM _ => true
  | .delSubM _ => false
  | .flushM => true

/-- Mutations that are deletes of either kind. -/
def delOnly : Mut → Bool
  | .delM _ => true
  | .delSubM _ => true
  | _ => false

/-! ### Reachability invariants of the store model -/

/-- Every sequence number stored anywhere is bounded by the counter. -/
def SeqOk (st : StoreSt) : Prop :=
  (∀ e ∈ st.memtable, mvSeq e.2 ≤ st.seq) ∧
    (∀ seg ∈ allSegs st, ∀ r ∈ seg.records, r.seq ≤ st.seq) ∧
    (∀ e ∈ st.subtombs, e.2 ≤ st.seq)

/-- Shape facts: compaction is disabled, so L1 and L2 stay empty and the
manifest lists exactly the L0 segments in order. -/
def SegsOk (st : StoreSt) : Prop :=
  st.segmentsL1 = [] ∧ st.segmentsL2 = [] ∧ st.manifest = st.segmentsL0

/-- The memtable is strictly sorted by key (the `BTreeMap` shape); in
particular keys occur at most once. -/
def MtKeysOk (st : StoreSt) : Prop :=
  st.memtable.Pairwise fun a b => ltStr a.1 b.1 = true

/-- Every live segment carries the bloom filter the writer built from its
record keys. -/
def BloomsOk (st : StoreSt) : Prop :=
  ∀ seg ∈ allSegs st, seg.bloom = some (segBloomSpec seg.records)

/-- States reachable by running mutations against a fresh store satisfy all
of the above. -/
def Reach (st : StoreSt) : Prop := SeqOk st ∧ SegsOk st ∧ MtKeysOk st ∧ BloomsOk st

/-! ## Order lemmas for the byte-string order -/

theorem ltB_irrefl (a : List Nat) : ltB a a = false := by
  induction a with
  | nil => rfl
  | cons x xs ih => simp [ltB, ih]

theorem ltB_asymm {a b : List Nat} (h : ltB a b = true) : ltB b a = false := by
  induction a generalizing b with
  | nil =>
    cases b with
    | nil => simp [ltB] at h
    | cons y ys => rfl
  | cons x xs ih =>
    cases b with
    | nil => simp [ltB] at h
    | cons y ys =>
      by_cases hxy : x < y
      · have hyx : ¬ y < x := by omega
        simp [ltB, hxy, hyx]
      · by_cases hyx : y < x
        · simp [ltB, hxy, hyx] at h
        · simp [ltB, hxy, hyx] at h ⊢
          exact ih h

theorem ltB_trans {a b c : List Nat} (h1 : ltB a b = true) (h2 : ltB b c = true) :
    ltB a c = true := by
  induction a generalizing b c with
  | nil =>
    cases b with
    | nil => simp [ltB] at h1
    | cons y ys =>
      cases c with
      | nil => simp [ltB] at h2
      | cons z zs => rfl
  | cons x xs ih =>
    cases b with
    | nil => simp [ltB] at h1
    | cons y ys =>
      cases c with
      | nil => simp [ltB] at h2
      | cons z zs =>
        by_cases hxy : x < y <;> by_cases hyz : y < z
        · have : x < z := by omega
          simp [ltB, this]
        · have hzy : ¬ z < y := by
            by_contra hc
            simp [ltB, hyz, hc] at h2
          have : x < z := by omega
          simp [ltB, this]
        · have hyx : ¬ y < x := by
            by_contra hc
            simp [ltB, hxy, hc] at h1
          have : x < z := by omega
          simp [ltB, this]
        · have hyx : ¬ y < x := by
            by_contra hc
            simp [ltB, hxy, hc] at h1
          have hzy : ¬ z < y := by
            by_contra hc
            simp [ltB, hyz, hc] at h2
          have hxy2 : x = y := by omega
          have hyz2 : y = z := by omega
          subst hxy2; subst hyz2
          simp [ltB, hxy] at h1 h2 ⊢
          exact ih h1 h2

theorem eq_of_not_ltB {a b : List Nat} (h1 : ltB a b = false) (h2 : ltB b a = false) :
    a = b := by
  induction a generalizing b with
  | nil =>
    cases b with
    | nil => rfl
    | cons y ys => simp [ltB] at h1
  | cons x xs ih =>
    cases b with
    | nil => simp [ltB] at h2
    | cons y ys =>
      by_cases hxy : x < y
      · simp [ltB, hxy] at h1
      · by_cases hyx : y < x
        · simp [ltB, hyx] at h2
        · have hxy2 : x = y := by omega
          subst hxy2
          simp [ltB, hxy] at h1 h2
          rw [ih h1 h2]

theorem leB_refl (a : List Nat) : leB a a = true := by
  simp [leB, ltB_irrefl]

theorem leB_of_ltB {a b : List Nat} (h : ltB a b = true) : leB a b = true := by
  simp [leB, ltB_asymm h]

theorem ltB_of_not_leB {a b : List Nat} (h : leB a b = false) : ltB b a = true := by
  simpa [leB] using h

/-! ## Bloom filter: no false negatives (C9) -/

theorem setBitByte_length (bits : List Nat) (pos : Nat) :
    (setBitByte bits pos).length = bits.length := by
  simp [setBitByte]

theorem getBitB_setBitByte_self (bits : List Nat) (pos : Nat)
    (h : pos / 8 < bits.length) : getBitB (setBitByte bits pos) pos = true := by
  unfold getBitB setBitByte
  rw [List.getD_eq_getElem?_getD, List.getElem?_set_self h]
  simp [Nat.testBit_or, Nat.shiftLeft_eq, Nat.testBit_two_pow_self]

theorem getD_set_cases (l : List Nat) (i q : Nat) (x : Nat) :
    (l.set i x).getD q 0 = l.getD q 0 ∨ ((l.set i x).getD q 0 = x ∧ q = i) := by
  by_cases hiq : q = i
  · subst hiq
    by_cases hlen : q < l.length
    · right
      refine ⟨?_, rfl⟩
      rw [List.getD_eq_getElem?_getD, List.getElem?_set_self hlen]
      rfl
    · left
      rw [List.set_eq_of_length_le (by omega)]
  · left
    rw [List.getD_eq_getElem?_getD, List.getElem?_set_ne (fun hh => hiq hh.symm),
      ← List.getD_eq_getElem?_getD]

theorem getBitB_setBitByte_le (bits : List Nat) (pos q : Nat)
    (h : getBitB bits q = true) : getBitB (setBitByte bits pos) q = true := by
  unfold getBitB at h ⊢
  unfold setBitByte
  rcases getD_set_cases bits (pos / 8) (q / 8) ((bits.getD (pos / 8) 0) ||| (1 <<< (pos % 8)))
    with hc | ⟨hc, hq⟩
  · rw [hc]; exact h
  · rw [hc, Nat.testBit_or]
    rw [hq] at h
    rw [h]
    rfl

theorem foldl_setBit_le (l : List Nat) (posOf : Nat → Nat) (bits : List Nat) (q : Nat)
    (h : getBitB bits q = true) :
    getBitB (l.foldl (fun bs j => setBitByte bs (posOf j)) bits) q = true := by
  induction l generalizing bits with
  | nil => exact h
  | cons j l ih => exact ih _ (getBitB_setBitByte_le _ _ _ h)

theorem foldl_setBit_length (l : List Nat) (posOf : Nat → Nat) (bits : List Nat) :
    (l.foldl (fun bs j => setBitByte bs (posOf j)) bits).length = bits.length := by
  induction l generalizing bits with
  | nil => rfl
  | cons j l ih => rw [List.foldl_cons, ih, setBitByte_length]

theorem foldl_setBit_sets (l : List Nat) (posOf : Nat → Nat) (bits : List Nat)
    (hpos : ∀ i ∈ l, posOf i / 8 < bits.length) :
    ∀ i ∈ l, getBitB (l.foldl (fun bs j => setBitByte bs (posOf j)) bits) (posOf i) = true := by
  induction l generalizing bits with
  | nil => intro i hi; cases hi
  | cons j l ih =>
    intro i hi
    rw [List.foldl_cons]
    rcases List.mem_cons.mp hi with rfl | hi'
    · exact foldl_setBit_le _ _ _ _
        (getBitB_setBitByte_self _ _ (hpos i (List.mem_cons_self _ _)))
    · exact ih (setBitByte bits (posOf j))
        (fun i2 hi2 => by rw [setBitByte_length]; exact hpos i2 (List.mem_cons_of_mem _ hi2)) i hi'

theorem bloomAdd_bitCount (bf : BloomF) (key : List Nat) :
    (bloomAdd bf key).bitCount = bf.bitCount := rfl

theorem bloomAdd_hashCount (bf : BloomF) (key : List Nat) :
    (bloomAdd bf key).hashCount = bf.hashCount := rfl

theorem bloomAdd_bits_length (bf : BloomF) (key : List Nat) :
    (bloomAdd bf key).bits.length = bf.bits.length := by
  simp [bloomAdd, foldl_setBit_length]

theorem bloomAdd_getBit_le (bf : BloomF) (key : List Nat) (q : Nat)
    (h : getBitB bf.bits q = true) : getBitB (bloomAdd bf key).bits q = true := by
  simp only [bloomAdd]
  exact foldl_setBit_le _ _ _ _ h

theorem bitCount_le_bits (bc : Nat) (len : Nat) (h : len = (bc + 7) / 8) : bc ≤ 8 * len := by
  have h1 := Nat.div_add_mod (bc + 7) 8
  have h2 : (bc + 7) % 8 < 8 := Nat.mod_lt _ (by omega)
  omega

theorem bloomAdd_sets_self (bf : BloomF) (key : List Nat)
    (hbc : 0 < bf.bitCount) (hlen : bf.bitCount ≤ 8 * bf.bits.length) :
    ∀ i ∈ List.range bf.hashCount,
      getBitB (bloomAdd bf key).bits (xxhash key i % bf.bitCount) = true := by
  intro i hi
  simp only [bloomAdd]
  refine foldl_setBit_sets _ _ _ ?_ i hi
  intro j _
  have hp : xxhash key j % bf.bitCount < bf.bitCount := Nat.mod_lt _ hbc
  have : xxhash key j % bf.bitCount < 8 * bf.bits.length := by omega
  exact (Nat.div_lt_iff_lt_mul (by omega)).mpr (by omega)

/-- Helper form of the no-false-negative property used both by the bloom
claim and by the store-level proofs: after folding `add` over any key list
containing `k`, `might_contain k` holds, provided the filter started as
`BloomFilter::new bc hc` with `bc > 0`. -/
theorem bloom_fold_contains (keys : List (List Nat)) (k : List Nat) (bc hc : Nat)
    (hbc : 0 < bc) (hk : k ∈ keys) :
    might_contain (keys.foldl bloomAdd (bloomNew bc hc)) k = true := by
  obtain ⟨pre, post, rfl⟩ := List.append_of_mem hk
  rw [List.foldl_append, List.foldl_cons]
  set bf1 := pre.foldl bloomAdd (bloomNew bc hc) with hbf1
  have hcount : ∀ (l : List (List Nat)) (b : BloomF), (l.foldl bloomAdd b).bitCount = b.bitCount := by
    intro l
    induction l with
    | nil => intro b; rfl
    | cons x l ih => intro b; rw [List.foldl_cons, ih, bloomAdd_bitCount]
  have hhash : ∀ (l : List (List Nat)) (b : BloomF), (l.foldl bloomAdd b).hashCount = b.hashCount := by
    intro l
    induction l with
    | nil => intro b; rfl
    | cons x l ih => intro b; rw [List.foldl_cons, ih, bloomAdd_hashCount]
  have hblen : ∀ (l : List (List Nat)) (b : BloomF),
      (l.foldl bloomAdd b).bits.length = b.bits.length := by
    intro l
    induction l with
    | nil => intro b; rfl
    | cons x l ih => intro b; rw [List.foldl_cons, ih, bloomAdd_bits_length]
  have hbc1 : bf1.bitCount = bc := by rw [hbf1, hcount]; rfl
  have hlen1 : bf1.bits.length = (bc + 7) / 8 := by rw [hbf1, hblen]; simp [bloomNew]
  have hset := bloomAdd_sets_self bf1 k (by omega)
    (by rw [hbc1, hlen1]; exact bitCount_le_bits bc _ rfl)
  rw [might_contain, List.all_eq_true]
  intro i hi
  have hcount2 : (post.foldl bloomAdd (bloomAdd bf1 k)).bitCount = bc := by
    rw [hcount, bloomAdd_bitCount, hbc1]
  have hhash2 : (post.foldl bloomAdd (bloomAdd bf1 k)).hashCount = bf1.hashCount := by
    rw [hhash, bloomAdd_hashCount]
  have hi' : i ∈ List.range bf1.hashCount := by rwa [hhash2] at hi
  have hbit := hset i hi'
  have hmono : ∀ (l : List (List Nat)) (b : BloomF) (q : Nat), getBitB b.bits q = true →
      getBitB (l.foldl bloomAdd b).bits q = true := by
    intro l
    induction l with
    | nil => intro b q h; exact h
    | cons x l ih => intro b q h; rw [List.foldl_cons]; exact ih _ _ (bloomAdd_getBit_le _ _ _ h)
  rw [hcount2, ← hbc1]
  exact hmono post _ _ hbit

/-- C9: the bloom filter has no false negatives — after any sequence of
`add` calls that includes `add(k)`, `might_contain(k)` is true, because
`add` and `might_contain` address the same `hash(k, i) mod bit_count` bit
positions with the deterministic `xxhash`. -/
theorem bloom_no_false_negative (keys : List (List Nat)) (k : List Nat) (bc hc : Nat)
    (hbc : 0 < bc) (hk : k ∈ keys) :
    might_contain (keys.foldl bloomAdd (bloomNew bc hc)) k = true :=
  bloom_fold_contains keys k bc hc hbc hk

/-- Witness for C9 at a concrete input. -/
theorem bloom_no_false_negative_witness :
    0 < 64 ∧ [97] ∈ [[97], [98]] ∧
      might_contain ([[97], [98]].foldl bloomAdd (bloomNew 64 3)) [97] = true :=
  ⟨by decide, by decide, bloom_no_false_negative [[97], [98]] [97] 64 3 (by decide) (by decide)⟩

/-! ## Store-model facts shared by the store claims -/

theorem flush_memtable_seq (st : StoreSt) : (flush_memtable st).seq = st.seq := by
  rw [flush_memtable]; split <;> rfl

theorem flush_memtable_subtombs (st : StoreSt) :
    (flush_memtable st).subtombs = st.subtombs := by
  rw [flush_memtable]; split <;> rfl

theorem flush_memtable_memtable (st : StoreSt) : (flush_memtable st).memtable = [] := by
  rw [flush_memtable]
  split
  · assumption
  · rfl

theorem flush_memtable_wal (st : StoreSt) : (flush_memtable st).wal = st.wal := by
  rw [flush_memtable]; split <;> rfl

theorem flush_memtable_l12 (st : StoreSt) :
    (flush_memtable st).segmentsL1 = st.segmentsL1 ∧
      (flush_memtable st).segmentsL2 = st.segmentsL2 := by
  rw [flush_memtable]; split <;> exact ⟨rfl, rfl⟩

theorem flush_memtable_segsOk (st : StoreSt) (h : SegsOk st) : SegsOk (flush_memtable st) := by
  rw [flush_memtable]
  split
  · exact h
  · obtain ⟨h1, h2, h3⟩ := h
    exact ⟨h1, h2, by simp [h3]⟩

theorem setCore_subtombs_plain (st : StoreSt) (p v : String) :
    (setCore st p v false).subtombs = st.subtombs := by
  simp [setCore]

theorem setCore_segs (st : StoreSt) (p v : String) (rs : Bool) :
    (setCore st p v rs).segmentsL0 = st.segmentsL0 ∧
      (setCore st p v rs).segmentsL1 = st.segmentsL1 ∧
      (setCore st p v rs).segmentsL2 = st.segmentsL2 ∧
      (setCore st p v rs).manifest = st.manifest := by
  cases rs <;> simp [setCore]

theorem setBody_subtombs_plain (st : StoreSt) (p v : String) :
    (setBody st p v false).subtombs = st.subtombs := by
  rw [setBody]
  split
  · rw [flush_memtable_subtombs, setCore_subtombs_plain]
  · rw [setCore_subtombs_plain]

theorem setBody_segsOk (st : StoreSt) (p v : String) (rs : Bool) (h : SegsOk st) :
    SegsOk (setBody st p v rs) := by
  have hcore : SegsOk (setCore st p v rs) := by
    obtain ⟨h1, h2, h3⟩ := h
    obtain ⟨c0, c1, c2, c3⟩ := setCore_segs st p v rs
    exact ⟨by rw [c1, h1], by rw [c2, h2], by rw [c3, h3, ← c0]⟩
  rw [setBody]
  split
  · exact flush_memtable_segsOk _ hcore
  · exact hcore

theorem runMut_setM (st : StoreSt) (p v : String) (rs : Bool) :
    runMut st (Mut.setM p v rs) = if parentVisible st p then st else setBody st p v rs := by
  rw [runMut, Store.set]
  by_cases hv : parentVisible st p = true
  · rw [if_pos hv, if_pos hv]
  · rw [if_neg hv, if_neg hv]

theorem runMut_segsOk (st : StoreSt) (m : Mut) (h : SegsOk st) : SegsOk (runMut st m) := by
  cases m with
  | setM p v rs =>
    rw [runMut_setM]
    split
    · exact h
    · exact setBody_segsOk st p v rs h
  | delM p => exact h
  | delSubM p => exact h
  | flushM => exact flush_memtable_segsOk st h

theorem runMutsFrom_segsOk (ms : List Mut) (st : StoreSt) (h : SegsOk st) :
    SegsOk (runMutsFrom st ms) := by
  induction ms generalizing st with
  | nil => exact h
  | cons m ms ih => exact ih _ (runMut_segsOk st m h)

theorem runMut_subtombs_plain (st : StoreSt) (m : Mut) (h : plainMut m = true) :
    (runMut st m).subtombs = st.subtombs := by
  cases m with
  | setM p v rs =>
    have hrs : rs = false := by
      cases rs
      · rfl
      · simp [plainMut] at h
    subst hrs
    rw [runMut_setM]
    split
    · rfl
    · exact setBody_subtombs_plain st p v
  | delM p => rfl
  | delSubM p => simp [plainMut] at h
  | flushM => exact flush_memtable_subtombs st

theorem runMutsFrom_subtombs_plain (ms : List Mut) (st : StoreSt)
    (h : ∀ m ∈ ms, plainMut m = true) : (runMutsFrom st ms).subtombs = st.subtombs := by
  induction ms generalizing st with
  | nil => rfl
  | cons m ms ih =>
    rw [runMutsFrom, List.foldl_cons, ← runMutsFrom]
    rw [ih _ (fun x hx => h x (List.mem_cons_of_mem _ hx)),
      runMut_subtombs_plain st m (h m (List.mem_cons_self _ _))]

/-- `Store::get` reads only the memtable, the three segment lists and the
subtree-tombstone table; the sequence counter, the size accumulator, the
manifest and the WAL do not influence it. -/
theorem get_update_irrelevant (st : StoreSt) (a b : Nat) (c : List ASeg) (d : List AWalE)
    (p : String) :
    Store.get { st with seq := a, memtableSize := b, manifest := c, wal := d } p =
      Store.get st p := rfl

/-- C10: only `set` grows `memtable_size` — `delete` and `delete_subtree`
install their tombstones without adding to it and without a threshold check,
so a workload of deletes and subtree deletes of any length leaves the size
unchanged, never reaches the threshold when it started below it, and
triggers no memtable flush (the segment lists and the manifest are
untouched). -/
theorem deletes_never_flush (st : StoreSt) (ops : List Mut)
    (h : ∀ m ∈ ops, delOnly m = true) :
    (runMutsFrom st ops).memtableSize = st.memtableSize ∧
      (runMutsFrom st ops).segmentsL0 = st.segmentsL0 ∧
      (runMutsFrom st ops).segmentsL1 = st.segmentsL1 ∧
      (runMutsFrom st ops).segmentsL2 = st.segmentsL2 ∧
      (runMutsFrom st ops).manifest = st.manifest ∧
      (st.memtableSize < MEMTABLE_THRESHOLD →
        (runMutsFrom st ops).memtableSize < MEMTABLE_THRESHOLD) := by
  induction ops generalizing st with
  | nil => exact ⟨rfl, rfl, rfl, rfl, rfl, fun hh => hh⟩
  | cons m ops ih =>
    rw [runMutsFrom, List.foldl_cons, ← runMutsFrom]
    have hm := h m (List.mem_cons_self _ _)
    have hstep : (runMut st m).memtableSize = st.memtableSize ∧
        (runMut st m).segmentsL0 = st.segmentsL0 ∧
        (runMut st m).segmentsL1 = st.segmentsL1 ∧
        (runMut st m).segmentsL2 = st.segmentsL2 ∧
        (runMut st m).manifest = st.manifest := by
      cases m with
      | delM p => exact ⟨rfl, rfl, rfl, rfl, rfl⟩
      | delSubM p => exact ⟨rfl, rfl, rfl, rfl, rfl⟩
      | setM p v rs => simp [delOnly] at hm
      | flushM => simp [delOnly] at hm
    obtain ⟨s1, s2, s3, s4, s5⟩ := hstep
    obtain ⟨i1, i2, i3, i4, i5, i6⟩ := ih (runMut st m) fun x hx => h x (List.mem_cons_of_mem _ hx)
    rw [i1, i2, i3, i4, i5, s1, s2, s3, s4, s5]
    exact ⟨rfl, rfl, rfl, rfl, rfl, fun hh => hh⟩

/-- Witness for C10 at a concrete delete-only workload. -/
theorem deletes_never_flush_witness :
    (∀ m ∈ ([Mut.delM "a", Mut.delSubM "b"] : List Mut), delOnly m = true) ∧
      (runMutsFrom initStore [Mut.delM "a", Mut.delSubM "b"]).memtableSize =
        initStore.memtableSize ∧
      (runMutsFrom initStore [Mut.delM "a", Mut.delSubM "b"]).segmentsL0 =
        initStore.segmentsL0 :=
  ⟨by decide, (deletes_never_flush initStore _ (by decide)).1,
    (deletes_never_flush initStore _ (by decide)).2.1⟩

/-- C5 counterexample: after `set("a","1",false)` the path `"a"` is a visible
scalar and an ancestor (not the immediate parent) of `"a/b/c"`, yet
`set("a/b/c","2",false)` succeeds — the code checks only `parent_path`, so
the claimed `InvalidInput` for arbitrary ancestors does not hold. -/
theorem set_deep_under_scalar_succeeds :
    Store.get (runMuts [Mut.setM "a" "1" false]) "a" = some "1" ∧
      strHasPrefixB "a/b/c" ("a" ++ "/") = true ∧
      (Store.set (runMuts [Mut.setM "a" "1" false]) "a/b/c" "2" false).isOk = true := by
  decide

/-- C5 (amended): `set` returns `InvalidInput` whenever `get` on the
immediate parent (`parent_path`) returns some, and in that case the store
state — memtable, sequence counter, subtree tombstones, segments, and the
WAL log — is left completely unchanged. -/
theorem set_parent_guard (st : StoreSt) (p v : String) (rs : Bool) (par : String)
    (hpar : parent_path p = some par) (hvis : (Store.get st par).isSome = true) :
    Store.set st p v rs = Except.error () ∧ runMut st (Mut.setM p v rs) = st := by
  have hg : parentVisible st p = true := by
    unfold parentVisible
    rw [hpar]
    exact hvis
  constructor
  · rw [Store.set, if_pos hg]
  · rw [runMut_setM, if_pos hg]

/-- Witness for the amended C5 at a concrete input. -/
theorem set_parent_guard_witness :
    parent_path "a/b" = some "a" ∧
      (Store.get (runMuts [Mut.setM "a" "1" false]) "a").isSome = true ∧
      Store.set (runMuts [Mut.setM "a" "1" false]) "a/b" "2" false = Except.error () :=
  ⟨by decide, by decide,
    (set_parent_guard (runMuts [Mut.setM "a" "1" false]) "a/b" "2" false "a"
      (by decide) (by decide)).1⟩

set_option maxRecDepth 1000000 in
/-- C1 (code-bug demonstration): while the point tombstone for `"a"` sits in
the memtable the read is masked (`none`), but after the tombstone is flushed
into a segment `get "a"` resurrects the value from the older segment — the
mutation with the largest `seq` on `"a"` is the delete, yet `get` returns
`some "1"`, because `get_from_segment` treats `DEL_POINT` records as "not
found here" and `Store::get` then takes the older segment's `SET`. -/
theorem flushed_point_delete_resurrection :
    Store.get (runMuts [Mut.setM "a" "1" false, Mut.flushM, Mut.delM "a"]) "a" = none ∧
      Store.get (runMuts [Mut.setM "a" "1" false, Mut.flushM, Mut.delM "a", Mut.flushM]) "a" =
        some "1" := by
  decide

set_option maxRecDepth 1000000 in
/-- C2 counterexample: `delete_subtree` reaches only the WAL and the
in-memory tombstone table — `flush_memtable_locked` writes the memtable but
not `subtombs` — so after `flush()` the masked read `get "a/b" = none` flips
to `some "1"` when the store is reopened without the WAL. -/
theorem reopen_drops_subtree_tombstone :
    Store.get (runMuts [Mut.setM "a/b" "1" false, Mut.flushM, Mut.delSubM "a", Mut.flushM])
        "a/b" = none ∧
      Store.get (reopenWithoutWal
          (runMuts [Mut.setM "a/b" "1" false, Mut.flushM, Mut.delSubM "a", Mut.flushM]))
        "a/b" = some "1" := by
  decide

/-- C2 (amended): for histories of plain sets, point deletes and flushes —
no `delete_subtree` and no `replace_subtree` set, so the subtree-tombstone
table is empty — every mutation's surviving effect is in the flushed
segments listed by the manifest, and reopening from the manifest with the
WAL absent yields the same result for every `get`. -/
theorem flush_then_reopen_without_wal (ms : List Mut)
    (hp : ∀ m ∈ ms, plainMut m = true) (p : String) :
    Store.get (reopenWithoutWal (Store.flush (runMuts ms))) p =
      Store.get (Store.flush (runMuts ms)) p := by
  have hsegs : SegsOk (Store.flush (runMuts ms)) :=
    flush_memtable_segsOk _ (runMutsFrom_segsOk ms initStore ⟨rfl, rfl, rfl⟩)
  have hsub : (Store.flush (runMuts ms)).subtombs = [] := by
    rw [Store.flush, flush_memtable_subtombs, runMuts, runMutsFrom_subtombs_plain ms initStore hp]
    rfl
  have hmt : (Store.flush (runMuts ms)).memtable = [] := flush_memtable_memtable _
  set st := Store.flush (runMuts ms) with hst
  obtain ⟨h1, h2, h3⟩ := hsegs
  have heq : reopenWithoutWal st =
      { st with seq := st.manifest.foldl (fun a s => max a s.seqHigh) 0,
                memtableSize := 0, wal := [] } := by
    rw [reopenWithoutWal]
    simp [StoreSt.mk.injEq, hmt, hsub, h1, h2, h3]
  rw [heq]
  exact get_update_irrelevant st _ 0 st.manifest [] p

/-- Witness for the amended C2 at a concrete plain history. -/
theorem flush_then_reopen_without_wal_witness :
    (∀ m ∈ ([Mut.setM "a" "1" false] : List Mut), plainMut m = true) ∧
      Store.get (reopenWithoutWal (Store.flush (runMuts [Mut.setM "a" "1" false]))) "a" =
        Store.get (Store.flush (runMuts [Mut.setM "a" "1" false])) "a" :=
  ⟨by decide, flush_then_reopen_without_wal _ (by decide) "a"⟩

/-! ## WAL replay on byte strings (C3) -/

theorem le4_length (n : Nat) : (le4 n).length = 4 := rfl

theorem le8_length (n : Nat) : (le8 n).length = 8 := rfl

theorem walMagicB_length : walMagicB.length = 4 := rfl

theorem readExact_exact (xs ys : List Nat) (n : Nat) (h : xs.length = n) :
    readExact n (xs ++ ys) = some (xs, ys) := by
  rw [readExact, if_pos (by rw [List.length_append, ← h]; omega)]
  rw [← h, List.take_left, List.drop_left]

theorem take_at_append (xs ys : List Nat) (n : Nat) (h : xs.length = n) :
    (xs ++ ys).take n = xs := by
  rw [← h, List.take_left]

theorem drop_at_append (xs ys : List Nat) (n : Nat) (h : xs.length = n) :
    (xs ++ ys).drop n = ys := by
  rw [← h, List.drop_left]

theorem getD_at_append (xs : List Nat) (y : Nat) (ys : List Nat) (n : Nat)
    (h : xs.length = n) : (xs ++ y :: ys).getD n 0 = y := by
  rw [← h, List.getD_eq_getElem?_getD, List.getElem?_append_right (le_refl _)]
  simp

theorem drop_cons_at (xs : List Nat) (y : Nat) (ys : List Nat) (n : Nat)
    (h : xs.length + 1 = n) : (xs ++ y :: ys).drop n = ys := by
  rw [List.append_cons]
  exact drop_at_append _ _ _ (by simp [← h])

theorem leNat_le4 (n : Nat) (h : n < 2 ^ 32) : leNat (le4 n) = n := by
  simp only [leNat, le4, List.foldr]
  omega

theorem leNat_le8 (n : Nat) (h : n < 2 ^ 64) : leNat (le8 n) = n := by
  simp only [leNat, le8, List.foldr]
  omega

theorem le4_bytes (n : Nat) : ∀ b ∈ le4 n, b < 256 := by
  intro b hb
  simp only [le4, List.mem_cons, List.not_mem_nil, or_false] at hb
  rcases hb with rfl | rfl | rfl | rfl <;> omega

theorem le8_bytes (n : Nat) : ∀ b ∈ le8 n, b < 256 := by
  intro b hb
  simp only [le8, List.mem_cons, List.not_mem_nil, or_false] at hb
  rcases hb with rfl | rfl | rfl | rfl | rfl | rfl | rfl | rfl <;> omega

theorem crcStep_lt (c : Nat) (h : c < 2 ^ 32) : crcStep c < 2 ^ 32 := by
  rw [crcStep]
  split
  · exact Nat.xor_lt_two_pow (by omega) (by norm_num)
  · omega

theorem crcByte_lt (crc b : Nat) (hc : crc < 2 ^ 32) (hb : b < 2 ^ 32) :
    crcByte crc b < 2 ^ 32 := by
  have h0 : crc ^^^ b < 2 ^ 32 := Nat.xor_lt_two_pow hc hb
  exact crcStep_lt _ (crcStep_lt _ (crcStep_lt _ (crcStep_lt _ (crcStep_lt _
    (crcStep_lt _ (crcStep_lt _ (crcStep_lt _ h0)))))))

theorem crc32_lt (data : List Nat) (h : ∀ b ∈ data, b < 2 ^ 32) : crc32 data < 2 ^ 32 := by
  rw [crc32]
  have hfold : ∀ (l : List Nat) (a : Nat), (∀ b ∈ l, b < 2 ^ 32) → a < 2 ^ 32 →
      l.foldl crcByte a < 2 ^ 32 := by
    intro l
    induction l with
    | nil => intro a _ ha; exact ha
    | cons x l ih =>
      intro a hl ha
      rw [List.foldl_cons]
      exact ih _ (fun b hb => hl b (List.mem_cons_of_mem _ hb))
        (crcByte_lt _ _ ha (hl x (List.mem_cons_self _ _)))
  exact Nat.xor_lt_two_pow (hfold data _ h (by norm_num)) (by norm_num)

theorem encRecW_eq (e : WRec) :
    encRecW e = le8 e.seq ++ e.kind ::
      (le4 e.key.length ++ (e.key ++ (if e.kind = 1 then le4 e.value.length ++ e.value else []))) := by
  rw [encRecW]
  simp [List.append_assoc]

theorem encRecW_length (e : WRec) :
    (encRecW e).length =
      13 + e.key.length + (if e.kind = 1 then 4 + e.value.length else 0) := by
  rw [encRecW_eq]
  by_cases hk : e.kind = 1 <;> simp [hk, le4_length, le8_length] <;> omega

theorem encRecW_bytes (e : WRec) (hwf : wfWRec e) : ∀ b ∈ encRecW e, b < 2 ^ 32 := by
  obtain ⟨hkind, hseq, hkey, hval, hlen⟩ := hwf
  intro b hb
  rw [encRecW_eq] at hb
  rcases List.mem_append.mp hb with h1 | h2
  · have := le8_bytes e.seq b h1; omega
  · rcases List.mem_cons.mp h2 with rfl | h3
    · rcases hkind with h | h | h <;> omega
    · rcases List.mem_append.mp h3 with h4 | h5
      · have := le4_bytes _ b h4; omega
      · rcases List.mem_append.mp h5 with h6 | h7
        · have := hkey b h6; omega
        · by_cases hk : e.kind = 1
          · rw [if_pos hk] at h7
            rcases List.mem_append.mp h7 with h8 | h9
            · have := le4_bytes _ b h8; omega
            · have := hval b h9; omega
          · rw [if_neg hk] at h7
            cases h7

theorem parseFrame_encFrame (e : WRec) (rest : List Nat) (hwf : wfWRec e) :
    parseFrame (encFrame e ++ rest) = some (encRecW e, rest) := by
  have hlt : (encRecW e).length < 2 ^ 32 := by
    rw [encRecW_length]
    obtain ⟨hkind, hseq, hkey, hval, hlen⟩ := hwf
    split <;> omega
  rw [encFrame, List.append_assoc, List.append_assoc]
  simp only [parseFrame,
    readExact_exact (le4 (encRecW e).length)
      (encRecW e ++ (le4 (crc32 (encRecW e)) ++ rest)) 4 (le4_length _),
    leNat_le4 _ hlt,
    readExact_exact (encRecW e) (le4 (crc32 (encRecW e)) ++ rest) (encRecW e).length rfl,
    readExact_exact (le4 (crc32 (encRecW e))) rest 4 (le4_length _),
    leNat_le4 _ (crc32_lt _ (encRecW_bytes e hwf)), if_pos rfl]
  exact if_pos trivial

theorem applyRecordBytes_enc (st : RState) (e : WRec) (hwf : wfWRec e) :
    applyRecordBytes st (encRecW e) = applyEntry st e := by
  obtain ⟨hkind, hseq, hkey, hval, hlen⟩ := hwf
  have hL := encRecW_length e
  have htake8 : (encRecW e).take 8 = le8 e.seq := by
    rw [encRecW_eq]; exact take_at_append _ _ 8 (le8_length _)
  have hgetD : (encRecW e).getD 8 0 = e.kind := by
    rw [encRecW_eq]; exact getD_at_append _ _ _ 8 (le8_length _)
  have hdrop9 : (encRecW e).drop 9 =
      le4 e.key.length ++ (e.key ++ (if e.kind = 1 then le4 e.value.length ++ e.value else [])) := by
    rw [encRecW_eq]; exact drop_cons_at _ _ _ 9 (by rw [le8_length])
  have hklen : ((encRecW e).drop 9).take 4 = le4 e.key.length := by
    rw [hdrop9]; exact take_at_append _ _ 4 (le4_length _)
  have hdrop13 : (encRecW e).drop 13 =
      e.key ++ (if e.kind = 1 then le4 e.value.length ++ e.value else []) := by
    rw [show (13 : Nat) = 9 + 4 from rfl, ← List.drop_drop, hdrop9]
    exact drop_at_append _ _ 4 (le4_length _)
  have hkeyx : ((encRecW e).drop 13).take e.key.length = e.key := by
    rw [hdrop13]; exact take_at_append _ _ _ rfl
  simp only [applyRecordBytes, htake8, hgetD, hklen, hkeyx,
    leNat_le8 _ hseq, leNat_le4 _ (by omega : e.key.length < 2 ^ 32)]
  rw [if_neg (by rw [hL]; split <;> omega)]
  rw [if_neg (by rw [hL]; split <;> omega)]
  by_cases hk : e.kind = 1
  · have hdropkv : (encRecW e).drop (13 + e.key.length) = le4 e.value.length ++ e.value := by
      rw [← List.drop_drop, hdrop13]
      rw [if_pos hk]
      exact drop_at_append _ _ _ rfl
    have hvlen : ((encRecW e).drop (13 + e.key.length)).take 4 = le4 e.value.length := by
      rw [hdropkv]; exact take_at_append _ _ 4 (le4_length _)
    have hvalx : ((encRecW e).drop (17 + e.key.length)).take e.value.length = e.value := by
      rw [show 17 + e.key.length = 13 + e.key.length + 4 from by omega, ← List.drop_drop,
        hdropkv, drop_at_append _ _ 4 (le4_length _)]
      exact List.take_length _
    rw [if_pos hk, if_pos (by rw [hL, if_pos hk]; omega)]
    rw [hvlen, leNat_le4 _ (by omega : e.value.length < 2 ^ 32)]
    rw [if_pos (by rw [hL, if_pos hk]; omega), hvalx]
    rw [applyEntry, if_pos hk]
  · rw [if_neg hk]
    rcases hkind with h1 | h2 | h3
    · exact absurd h1 hk
    · rw [if_pos h2, applyEntry, if_neg hk, if_pos h2]
    · rw [if_pos h3]
      rw [if_neg (by omega : ¬ e.kind = 2)]
      rw [applyEntry, if_neg hk, if_neg (by omega : ¬ e.kind = 2)]

theorem replayLoop_frames (recs : List WRec) (t : List Nat) (st : RState) (fuel : Nat)
    (hwf : ∀ e ∈ recs, wfWRec e) (ht : parseFrame t = none) (hfuel : recs.length < fuel) :
    replayLoop fuel ((recs.map encFrame).flatten ++ t) st = recs.foldl applyEntry st := by
  induction recs generalizing st fuel with
  | nil =>
    cases fuel with
    | zero => omega
    | succ f => rw [List.map_nil, List.flatten_nil, List.nil_append, replayLoop, ht]; rfl
  | cons e recs ih =>
    cases fuel with
    | zero => omega
    | succ f =>
      rw [List.map_cons, List.flatten_cons, List.append_assoc, replayLoop,
        parseFrame_encFrame e _ (hwf e (List.mem_cons_self _ _))]
      show replayLoop f ((recs.map encFrame).flatten ++ t) (applyRecordBytes st (encRecW e)) =
        (e :: recs).foldl applyEntry st
      rw [applyRecordBytes_enc st e (hwf e (List.mem_cons_self _ _)), List.foldl_cons]
      rw [List.length_cons] at hfuel
      exact ih _ _ (fun x hx => hwf x (List.mem_cons_of_mem _ hx)) (by omega)

theorem encFrame_length_pos (e : WRec) : 1 ≤ (encFrame e).length := by
  rw [encFrame]
  simp [le4]

theorem flatten_frames_length (recs : List WRec) :
    recs.length ≤ ((recs.map encFrame).flatten).length := by
  induction recs with
  | nil => simp
  | cons e recs ih =>
    simp only [List.map_cons, List.flatten_cons, List.length_append, List.length_cons]
    have := encFrame_length_pos e
    omega

theorem applyEntry_seq (st : RState) (e : WRec) : (applyEntry st e).seq = max st.seq e.seq := by
  simp only [applyEntry]
  split_ifs <;> rfl

theorem foldl_applyEntry_seq (recs : List WRec) (st : RState) :
    (recs.foldl applyEntry st).seq = recs.foldl (fun a e => max a e.seq) st.seq := by
  induction recs generalizing st with
  | nil => rfl
  | cons e recs ih => rw [List.foldl_cons, List.foldl_cons, ih, applyEntry_seq]

/-- C3: on a byte string consisting of the WAL magic, the frames of
well-formed records, and a torn tail (any suffix whose first frame cannot be
read whole with a matching CRC — in particular any short suffix), replay
applies exactly the framed records in order: each `SET`, `DEL_POINT` and
`DEL_SUB` becomes visible in the memtable or subtree-tombstone table, nothing
from the tail is applied, and `seq` ends at the maximum applied `seq` (joined
with its starting value). -/
theorem replay_wal_applies_valid_frames (recs : List WRec) (t : List Nat) (st0 : RState)
    (hwf : ∀ e ∈ recs, wfWRec e) (ht : parseFrame t = none) :
    replayWal (walMagicB ++ ((recs.map encFrame).flatten ++ t)) st0 =
        recs.foldl applyEntry st0 ∧
      (replayWal (walMagicB ++ ((recs.map encFrame).flatten ++ t)) st0).seq =
        recs.foldl (fun a e => max a e.seq) st0.seq := by
  have hmain : replayWal (walMagicB ++ ((recs.map encFrame).flatten ++ t)) st0 =
      recs.foldl applyEntry st0 := by
    rw [replayWal, readExact_exact _ _ 4 walMagicB_length]
    show (if walMagicB = walMagicB then
        replayLoop ((walMagicB ++ ((recs.map encFrame).flatten ++ t)).length + 1)
          ((recs.map encFrame).flatten ++ t) st0
      else st0) = recs.foldl applyEntry st0
    rw [if_pos rfl]
    apply replayLoop_frames recs t st0 _ hwf ht
    have h1 := flatten_frames_length recs
    rw [List.length_append, List.length_append]
    omega
  exact ⟨hmain, by rw [hmain, foldl_applyEntry_seq]⟩

/-- Witness for C3: two well-formed records (a `SET` and a `DEL_SUB`) and the
torn tail `[0, 0]`. -/
theorem replay_wal_applies_valid_frames_witness :
    (∀ e ∈ ([{ seq := 1, kind := 1, key := [97], value := [98] },
             { seq := 2, kind := 3, key := [97, 47], value := [] }] : List WRec), wfWRec e) ∧
      parseFrame [0, 0] = none ∧
      replayWal (walMagicB ++
          ((([{ seq := 1, kind := 1, key := [97], value := [98] },
              { seq := 2, kind := 3, key := [97, 47], value := [] }] : List WRec).map
              encFrame).flatten ++ [0, 0]))
          { seq := 0, memtable := [], memtableSize := 0, subtombs := [] } =
        ([{ seq := 1, kind := 1, key := [97], value := [98] },
          { seq := 2, kind := 3, key := [97, 47], value := [] }] : List WRec).foldl applyEntry
          { seq := 0, memtable := [], memtableSize := 0, subtombs := [] } :=
  ⟨by simp only [wfWRec]; decide, by decide,
    (replay_wal_applies_valid_frames _ [0, 0]
      { seq := 0, memtable := [], memtableSize := 0, subtombs := [] }
      (by simp only [wfWRec]; decide) (by decide)).1⟩

/-! ## Replace-subtree masking (C8): order, map and coverage lemmas -/

theorem ltStr_irrefl (a : String) : ltStr a a = false := ltB_irrefl _

theorem ltStr_trans {a b c : String} (h1 : ltStr a b = true) (h2 : ltStr b c = true) :
    ltStr a c = true := ltB_trans h1 h2

theorem char_toNat_inj : Function.Injective Char.toNat := by
  intro c d h
  apply Char.ext
  have hn : c.val.toNat = d.val.toNat := h
  exact UInt32.toNat.inj hn

theorem eq_of_not_ltStr {a b : String} (h1 : ltStr a b = false) (h2 : ltStr b a = false) :
    a = b := by
  have hmap : a.data.map Char.toNat = b.data.map Char.toNat := eq_of_not_ltB h1 h2
  have hdata : a.data = b.data := List.map_injective_iff.mpr char_toNat_inj hmap
  cases a
  cases b
  exact congrArg String.mk hdata

theorem mem_mtInsert (k : String) (v : MemValue) (m : List (String × MemValue))
    (x : String × MemValue) (h : x ∈ mtInsert k v m) : x = (k, v) ∨ x ∈ m := by
  induction m with
  | nil => simpa [mtInsert] using h
  | cons e rest ih =>
    rw [mtInsert] at h
    split at h
    · rcases List.mem_cons.mp h with rfl | h2
      · exact Or.inl rfl
      · exact Or.inr h2
    · split at h
      · rcases List.mem_cons.mp h with rfl | h2
        · exact Or.inl rfl
        · exact Or.inr (List.mem_cons_of_mem _ h2)
      · rcases List.mem_cons.mp h with rfl | h2
        · exact Or.inr (List.mem_cons_self _ _)
        · rcases ih h2 with h3 | h3
          · exact Or.inl h3
          · exact Or.inr (List.mem_cons_of_mem _ h3)

theorem mtInsert_self_mem (k : String) (v : MemValue) (m : List (String × MemValue)) :
    (k, v) ∈ mtInsert k v m := by
  induction m with
  | nil => simp [mtInsert]
  | cons e rest ih =>
    rw [mtInsert]
    split
    · exact List.mem_cons_self _ _
    · split
      · exact List.mem_cons_self _ _
      · exact List.mem_cons_of_mem _ ih

theorem mtInsert_ne_nil (k : String) (v : MemValue) (m : List (String × MemValue)) :
    mtInsert k v m ≠ [] := by
  cases m with
  | nil => simp [mtInsert]
  | cons e rest =>
    rw [mtInsert]
    split
    · simp
    · split <;> simp

theorem mtLookup_mtInsert_self (k : String) (v : MemValue) (m : List (String × MemValue)) :
    mtLookup (mtInsert k v m) k = some v := by
  induction m with
  | nil => simp [mtInsert, mtLookup]
  | cons e rest ih =>
    rw [mtInsert]
    split
    · simp [mtLookup]
    · split
      · simp [mtLookup]
      · rename_i h1 h2
        have hne : ¬ (e.1 == k) = true := by
          rw [beq_iff_eq]
          exact fun hh => h2 hh.symm
        rw [mtLookup, @List.find?_cons_of_neg _ (fun x => x.1 == k) e (mtInsert k v rest) hne]
        exact ih

theorem mtLookup_mtInsert_ne (k : String) (v : MemValue) (m : List (String × MemValue))
    (q : String) (hq : q ≠ k) : mtLookup (mtInsert k v m) q = mtLookup m q := by
  have hkq : ¬ (((k, v) : String × MemValue).1 == q) = true := by
    rw [beq_iff_eq]
    exact fun hh => hq hh.symm
  induction m with
  | nil =>
    rw [mtInsert, mtLookup, @List.find?_cons_of_neg _ (fun x => x.1 == q) (k, v) [] hkq]
    rfl
  | cons e rest ih =>
    rw [mtInsert]
    split
    · rw [mtLookup, @List.find?_cons_of_neg _ (fun x => x.1 == q) (k, v) (e :: rest) hkq]
      rfl
    · split
      · rename_i h1 h2
        simp only [mtLookup]
        rw [@List.find?_cons_of_neg _ (fun x => x.1 == q) (k, v) rest hkq]
        have he : ¬ (e.1 == q) = true := by
          rw [beq_iff_eq, ← h2]
          exact fun hh => hq hh.symm
        rw [@List.find?_cons_of_neg _ (fun x => x.1 == q) e rest he]
      · by_cases heq : e.1 = q
        · simp only [mtLookup]
          rw [@List.find?_cons_of_pos _ (fun x => x.1 == q) e (mtInsert k v rest)
              (beq_iff_eq.mpr heq),
            @List.find?_cons_of_pos _ (fun x => x.1 == q) e rest (beq_iff_eq.mpr heq)]
        · have he : ¬ (e.1 == q) = true := by
            rw [beq_iff_eq]
            exact heq
          simp only [mtLookup]
          rw [@List.find?_cons_of_neg _ (fun x => x.1 == q) e (mtInsert k v rest) he,
            @List.find?_cons_of_neg _ (fun x => x.1 == q) e rest he]
          exact ih

theorem mtLookup_mem (m : List (String × MemValue)) (q : String) (mv : MemValue)
    (h : mtLookup m q = some mv) : (q, mv) ∈ m := by
  rw [mtLookup, Option.map_eq_some'] at h
  obtain ⟨e, he, hev⟩ := h
  have h1 : e.1 = q := beq_iff_eq.mp (@List.find?_some _ (fun x => x.1 == q) e m he)
  have h2 := @List.mem_of_find?_eq_some _ (fun x => x.1 == q) e m he
  have : e = (q, mv) := by
    cases e
    simp_all
  rw [← this]
  exact h2

theorem mtInsert_pairwise (k : String) (v : MemValue) (m : List (String × MemValue))
    (h : m.Pairwise fun a b => ltStr a.1 b.1 = true) :
    (mtInsert k v m).Pairwise fun a b => ltStr a.1 b.1 = true := by
  induction m with
  | nil => simp [mtInsert]
  | cons e rest ih =>
    rcases List.pairwise_cons.mp h with ⟨he, hrest⟩
    rw [mtInsert]
    split
    · rename_i hlt
      refine List.pairwise_cons.mpr ⟨?_, h⟩
      intro x hx
      rcases List.mem_cons.mp hx with rfl | h2
      · exact hlt
      · exact ltStr_trans hlt (he x h2)
    · split
      · rename_i hlt heq
        refine List.pairwise_cons.mpr ⟨?_, hrest⟩
        intro x hx
        rw [heq]
        exact he x hx
      · rename_i hlt heq
        refine List.pairwise_cons.mpr ⟨?_, ih hrest⟩
        intro x hx
        rcases mem_mtInsert k v rest x hx with rfl | h2
        · by_cases hc : ltStr e.1 k = true
          · exact hc
          · have hc1 : ltStr e.1 k = false := by
              cases hx2 : ltStr e.1 k
              · rfl
              · exact absurd hx2 hc
            have hc2 : ltStr k e.1 = false := by
              cases hx2 : ltStr k e.1
              · rfl
              · exact absurd hx2 hlt
            exact absurd (eq_of_not_ltStr hc1 hc2).symm heq
        · exact he x h2

theorem mem_stInsert (k : String) (v : Nat) (l : List (String × Nat)) (x : String × Nat)
    (h : x ∈ stInsert k v l) : x = (k, v) ∨ x ∈ l := by
  induction l with
  | nil => simpa [stInsert] using h
  | cons e rest ih =>
    rw [stInsert] at h
    split at h
    · rcases List.mem_cons.mp h with rfl | h2
      · exact Or.inl rfl
      · exact Or.inr (List.mem_cons_of_mem _ h2)
    · rcases List.mem_cons.mp h with rfl | h2
      · exact Or.inr (List.mem_cons_self _ _)
      · rcases ih h2 with h3 | h3
        · exact Or.inl h3
        · exact Or.inr (List.mem_cons_of_mem _ h3)

theorem stInsert_self_mem (k : String) (v : Nat) (l : List (String × Nat)) :
    (k, v) ∈ stInsert k v l := by
  induction l with
  | nil => simp [stInsert]
  | cons e rest ih =>
    rw [stInsert]
    split
    · exact List.mem_cons_self _ _
    · exact List.mem_cons_of_mem _ ih

theorem strHasPrefixB_append_slash_self (p : String) :
    strHasPrefixB p (p ++ "/") = false := by
  rw [strHasPrefixB]
  by_contra hc
  have h1 : (p ++ "/").data.isPrefixOf p.data = true := by
    cases hx : (p ++ "/").data.isPrefixOf p.data
    · exact absurd hx hc
    · rfl
  have h2 := (List.isPrefixOf_iff_prefix.mp h1).length_le
  rw [String.data_append, List.length_append] at h2
  have h3 : ("/" : String).data.length = 1 := rfl
  omega

theorem ne_of_strict_under (q p : String) (h : strHasPrefixB q (p ++ "/") = true) :
    q ≠ p := by
  rintro rfl
  rw [strHasPrefixB_append_slash_self] at h
  cases h

theorem covered_of_mem (st : StoreSt) (q : String) (s : Nat) (pre : String) (t : Nat)
    (hm : (pre, t) ∈ st.subtombs) (hp : strHasPrefixB q pre = true) (hs : s ≤ t) :
    covered_by_subtomb st q s = true := by
  rw [covered_by_subtomb, List.any_eq_true]
  exact ⟨(pre, t), hm, by simp [hp, hs]⟩

theorem covered_false (st : StoreSt) (q : String) (s : Nat)
    (h : ∀ e ∈ st.subtombs, strHasPrefixB q e.1 = false ∨ e.2 < s) :
    covered_by_subtomb st q s = false := by
  rw [covered_by_subtomb, List.any_eq_false]
  intro e he
  rcases h e he with h1 | h1 <;> simp [h1]

theorem covered_congr (st1 st2 : StoreSt) (q : String) (s : Nat)
    (h : st1.subtombs = st2.subtombs) :
    covered_by_subtomb st1 q s = covered_by_subtomb st2 q s := by
  rw [covered_by_subtomb, covered_by_subtomb, h]

theorem setCore_false_fields (st : StoreSt) (p v : String) :
    (setCore st p v false).seq = st.seq + 1 ∧
      (setCore st p v false).memtable =
        mtInsert p (.Scalar v (st.seq + 1)) st.memtable ∧
      (setCore st p v false).subtombs = st.subtombs := by
  refine ⟨?_, ?_, ?_⟩ <;> simp [setCore]

theorem setCore_true_fields (st : StoreSt) (p v : String) :
    (setCore st p v true).seq = st.seq + 1 ∧
      (setCore st p v true).memtable =
        mtInsert p (.Scalar v (st.seq + 1))
          (mtInsert p (.PointTomb (st.seq + 1)) st.memtable) ∧
      (setCore st p v true).subtombs = stInsert (p ++ "/") (st.seq + 1) st.subtombs := by
  refine ⟨?_, ?_, ?_⟩ <;> simp [setCore]

theorem allSegs_setCore (st : StoreSt) (p v : String) (rs : Bool) :
    allSegs (setCore st p v rs) = allSegs st := by
  obtain ⟨c0, c1, c2, c3⟩ := setCore_segs st p v rs
  rw [allSegs, allSegs, c0, c1, c2]

theorem flush_memtable_eq (st : StoreSt) (h : ¬ st.memtable = []) :
    flush_memtable st =
      { st with segmentsL0 := st.segmentsL0 ++ [segOfMt st.memtable],
                manifest := st.manifest ++ [segOfMt st.memtable],
                memtable := [], memtableSize := 0 } := by
  rw [flush_memtable, if_neg h]

theorem mvToRec_seq (e : String × MemValue) : (mvToRec e).seq = mvSeq e.2 := by
  rcases e with ⟨k, mv⟩
  cases mv <;> rfl

theorem mvToRec_key (e : String × MemValue) : (mvToRec e).key = e.1 := by
  rcases e with ⟨k, mv⟩
  cases mv <;> rfl

theorem mem_allSegs_flush (st : StoreSt) (hmt : ¬ st.memtable = []) (s : ASeg) :
    s ∈ allSegs (flush_memtable st) ↔ s ∈ allSegs st ∨ s = segOfMt st.memtable := by
  rw [flush_memtable_eq st hmt]
  simp only [allSegs, List.mem_append, List.mem_singleton]
  tauto

theorem seqOk_setCore (st : StoreSt) (p v : String) (rs : Bool) (h : SeqOk st) :
    SeqOk (setCore st p v rs) := by
  obtain ⟨h1, h2, h3⟩ := h
  cases rs
  · obtain ⟨f1, f2, f3⟩ := setCore_false_fields st p v
    refine ⟨?_, ?_, ?_⟩
    · rw [f2, f1]
      intro e he
      rcases mem_mtInsert _ _ _ _ he with rfl | h4
      · simp [mvSeq]
      · exact le_trans (h1 e h4) (by omega)
    · intro s hs r hr
      rw [f1]
      rw [allSegs_setCore st p v false] at hs
      exact le_trans (h2 s hs r hr) (by omega)
    · rw [f3, f1]
      intro e he
      exact le_trans (h3 e he) (by omega)
  · obtain ⟨f1, f2, f3⟩ := setCore_true_fields st p v
    refine ⟨?_, ?_, ?_⟩
    · rw [f2, f1]
      intro e he
      rcases mem_mtInsert _ _ _ _ he with rfl | h4
      · simp [mvSeq]
      · rcases mem_mtInsert _ _ _ _ h4 with rfl | h5
        · simp [mvSeq]
        · exact le_trans (h1 e h5) (by omega)
    · intro s hs r hr
      rw [f1]
      rw [allSegs_setCore st p v true] at hs
      exact le_trans (h2 s hs r hr) (by omega)
    · rw [f3, f1]
      intro e he
      rcases mem_stInsert _ _ _ _ he with rfl | h4
      · simp
      · exact le_trans (h3 e h4) (by omega)

theorem seqOk_flush_memtable (st : StoreSt) (h : SeqOk st) : SeqOk (flush_memtable st) := by
  by_cases hmt : st.memtable = []
  · rw [flush_memtable, if_pos hmt]
    exact h
  · obtain ⟨h1, h2, h3⟩ := h
    have hseq : (flush_memtable st).seq = st.seq := flush_memtable_seq st
    refine ⟨?_, ?_, ?_⟩
    · rw [flush_memtable_memtable]
      intro e he
      cases he
    · intro s hs r hr
      rw [hseq]
      rcases (mem_allSegs_flush st hmt s).mp hs with h4 | rfl
      · exact h2 s h4 r hr
      · rcases List.mem_map.mp hr with ⟨e, he, rfl⟩
        rw [mvToRec_seq]
        exact h1 e he
    · rw [flush_memtable_subtombs, hseq]
      exact h3

theorem seqOk_runMut (st : StoreSt) (m : Mut) (h : SeqOk st) : SeqOk (runMut st m) := by
  cases m with
  | setM p v rs =>
    rw [runMut_setM]
    split
    · exact h
    · rw [setBody]
      split
      · exact seqOk_flush_memtable _ (seqOk_setCore st p v rs h)
      · exact seqOk_setCore st p v rs h
  | delM p =>
    obtain ⟨h1, h2, h3⟩ := h
    refine ⟨?_, ?_, ?_⟩
    · show ∀ e ∈ mtInsert p (.PointTomb (st.seq + 1)) st.memtable, mvSeq e.2 ≤ st.seq + 1
      intro e he
      rcases mem_mtInsert p (.PointTomb (st.seq + 1)) st.memtable e he with rfl | h4
      · simp [mvSeq]
      · exact le_trans (h1 e h4) (by omega)
    · show ∀ seg ∈ allSegs (Store.delete st p), ∀ r ∈ seg.records, r.seq ≤ st.seq + 1
      intro s hs r hr
      have hs2 : s ∈ allSegs st := hs
      exact le_trans (h2 s hs2 r hr) (by omega)
    · show ∀ e ∈ st.subtombs, e.2 ≤ st.seq + 1
      intro e he
      exact le_trans (h3 e he) (by omega)
  | delSubM p =>
    obtain ⟨h1, h2, h3⟩ := h
    refine ⟨?_, ?_, ?_⟩
    · show ∀ e ∈ st.memtable, mvSeq e.2 ≤ st.seq + 1
      intro e he
      exact le_trans (h1 e he) (by omega)
    · show ∀ seg ∈ allSegs (Store.delete_subtree st p), ∀ r ∈ seg.records, r.seq ≤ st.seq + 1
      intro s hs r hr
      have hs2 : s ∈ allSegs st := hs
      exact le_trans (h2 s hs2 r hr) (by omega)
    · show ∀ e ∈ stInsert (if endsSlash p = true then p else p ++ "/") (st.seq + 1)
          st.subtombs, e.2 ≤ st.seq + 1
      intro e he
      rcases mem_stInsert _ _ st.subtombs e he with rfl | h4
      · simp
      · exact le_trans (h3 e h4) (by omega)
  | flushM => exact seqOk_flush_memtable st h

theorem mtOk_runMut (st : StoreSt) (m : Mut) (h : MtKeysOk st) : MtKeysOk (runMut st m) := by
  cases m with
  | setM p v rs =>
    rw [runMut_setM]
    split
    · exact h
    · rw [setBody]
      split
      · unfold MtKeysOk
        rw [flush_memtable_memtable]
        exact List.Pairwise.nil
      · cases rs
        · unfold MtKeysOk
          rw [(setCore_false_fields st p v).2.1]
          exact mtInsert_pairwise _ _ _ h
        · unfold MtKeysOk
          rw [(setCore_true_fields st p v).2.1]
          exact mtInsert_pairwise _ _ _ (mtInsert_pairwise _ _ _ h)
  | delM p =>
    unfold MtKeysOk
    exact mtInsert_pairwise _ _ _ h
  | delSubM p => exact h
  | flushM =>
    by_cases hmt : st.memtable = []
    · rw [runMut, Store.flush, flush_memtable, if_pos hmt]
      exact h
    · unfold MtKeysOk
      rw [runMut, Store.flush, flush_memtable_memtable]
      exact List.Pairwise.nil

theorem bloomsOk_flush_memtable (st : StoreSt) (h : BloomsOk st) :
    BloomsOk (flush_memtable st) := by
  by_cases hmt : st.memtable = []
  · rw [flush_memtable, if_pos hmt]
    exact h
  · intro s hs
    rcases (mem_allSegs_flush st hmt s).mp hs with h4 | rfl
    · exact h s h4
    · rfl

theorem bloomsOk_runMut (st : StoreSt) (m : Mut) (h : BloomsOk st) : BloomsOk (runMut st m) := by
  cases m with
  | setM p v rs =>
    rw [runMut_setM]
    split
    · exact h
    · rw [setBody]
      split
      · apply bloomsOk_flush_memtable
        intro s hs
        rw [allSegs_setCore st p v rs] at hs
        exact h s hs
      · intro s hs
        rw [allSegs_setCore st p v rs] at hs
        exact h s hs
  | delM p => exact h
  | delSubM p => exact h
  | flushM => exact bloomsOk_flush_memtable st h

theorem reach_runMut (st : StoreSt) (m : Mut) (h : Reach st) : Reach (runMut st m) :=
  ⟨seqOk_runMut st m h.1, runMut_segsOk st m h.2.1, mtOk_runMut st m h.2.2.1,
    bloomsOk_runMut st m h.2.2.2⟩

theorem reach_initStore : Reach initStore := by
  refine ⟨⟨?_, ?_, ?_⟩, ⟨rfl, rfl, rfl⟩, List.Pairwise.nil, ?_⟩
  · intro e he
    cases he
  · intro s hs
    cases hs
  · intro e he
    cases he
  · intro s hs
    cases hs

theorem reach_runMutsFrom (ms : List Mut) (st : StoreSt) (h : Reach st) :
    Reach (runMutsFrom st ms) := by
  induction ms generalizing st with
  | nil => exact h
  | cons m ms ih => exact ih _ (reach_runMut st m h)

theorem reach_runMuts (ms : List Mut) : Reach (runMuts ms) :=
  reach_runMutsFrom ms initStore reach_initStore

theorem segLookupA_some (seg : ASeg) (q v : String) (s : Nat)
    (h : segLookupA seg q = some (v, s)) :
    ∃ r ∈ seg.records, r.key = q ∧ r.kind = 1 ∧ r.value = v ∧ r.seq = s := by
  rw [segLookupA, Option.map_eq_some'] at h
  obtain ⟨r, hr, hrv⟩ := h
  have hp2 : (r.key == q && r.kind == 1) = true :=
    @List.find?_some _ (fun x => x.key == q && x.kind == 1) r seg.records hr
  simp only [Bool.and_eq_true, beq_iff_eq] at hp2
  have hm := @List.mem_of_find?_eq_some _ (fun x => x.key == q && x.kind == 1) r seg.records hr
  have hv : r.value = v ∧ r.seq = s := by
    have : (r.value, r.seq) = (v, s) := hrv
    simpa using this
  exact ⟨r, hm, hp2.1, hp2.2, hv.1, hv.2⟩

theorem stepSeg_acc_cases (st : StoreSt) (q : String) (acc : Option (String × Nat))
    (seg : ASeg) (x : String × Nat) (h : stepSeg st q acc seg = some x) :
    acc = some x ∨ ∃ r ∈ seg.records, r.key = q ∧ r.kind = 1 ∧ x = (r.value, r.seq) := by
  simp only [stepSeg] at h
  split at h
  · split at h
    · rename_i v s hlk
      obtain ⟨r, hr, hk, hkind, hvv, hss⟩ := segLookupA_some seg q v s hlk
      split at h
      · split at h
        · refine Or.inr ⟨r, hr, hk, hkind, ?_⟩
          rw [hvv, hss]
          exact (Option.some.inj h).symm
        · split at h
          · refine Or.inr ⟨r, hr, hk, hkind, ?_⟩
            rw [hvv, hss]
            exact (Option.some.inj h).symm
          · exact Or.inl h
      · exact Or.inl h
    · exact Or.inl h
  · exact Or.inl h

theorem fold_stepSeg_bound (st : StoreSt) (q : String) (segs : List ASeg) (B : Nat)
    (hsegs : ∀ seg ∈ segs, ∀ r ∈ seg.records, r.seq ≤ B) :
    ∀ acc, (∀ x, acc = some x → x.2 ≤ B) →
      ∀ x, segs.foldl (stepSeg st q) acc = some x → x.2 ≤ B := by
  induction segs with
  | nil => intro acc hacc x hx; exact hacc x hx
  | cons seg segs ih =>
    intro acc hacc x hx
    rw [List.foldl_cons] at hx
    refine ih (fun s2 hs2 => hsegs s2 (List.mem_cons_of_mem _ hs2)) _ ?_ x hx
    intro y hy
    rcases stepSeg_acc_cases st q acc seg y hy with h1 | ⟨r, hr, hk, hkind, rfl⟩
    · exact hacc y h1
    · exact hsegs seg (List.mem_cons_self _ _) r hr

theorem fold_stepSeg_none (st : StoreSt) (q : String) (segs : List ASeg)
    (h : ∀ seg ∈ segs, ∀ r ∈ seg.records, r.key = q → r.kind = 1 →
      covered_by_subtomb st q r.seq = true) :
    segs.foldl (stepSeg st q) none = none := by
  induction segs with
  | nil => rfl
  | cons seg segs ih =>
    rw [List.foldl_cons]
    have hstep : stepSeg st q none seg = none := by
      by_cases hb : bloomOk seg q = true
      · simp only [stepSeg, if_pos hb]
        cases hlk : segLookupA seg q with
        | none => rfl
        | some c =>
          obtain ⟨v, s⟩ := c
          obtain ⟨r, hr, hk, hkind, hvv, hss⟩ := segLookupA_some seg q v s hlk
          have hcov := h seg (List.mem_cons_self _ _) r hr hk hkind
          rw [hss] at hcov
          show (if covered_by_subtomb st q s = false then some (v, s) else none) = none
          rw [if_neg (by rw [hcov]; decide)]
      · simp only [stepSeg]
        rw [if_neg hb]
    rw [hstep]
    exact ih fun sg hs => h sg (List.mem_cons_of_mem _ hs)

theorem stepSeg_final (st : StoreSt) (q : String) (acc : Option (String × Nat)) (seg : ASeg)
    (v : String) (s B : Nat) (hb : bloomOk seg q = true) (hlk : segLookupA seg q = some (v, s))
    (hcov : covered_by_subtomb st q s = false)
    (hacc : ∀ x, acc = some x → x.2 ≤ B) (hBs : B < s) :
    stepSeg st q acc seg = some (v, s) := by
  cases acc with
  | none =>
    simp only [stepSeg, if_pos hb, hlk]
    rw [if_pos hcov]
  | some a =>
    obtain ⟨v0, s0⟩ := a
    have hs0 : s0 ≤ B := hacc (v0, s0) rfl
    simp only [stepSeg, if_pos hb, hlk]
    rw [if_pos hcov, if_pos (by omega : s0 < s)]

theorem findSet_map (m : List (String × MemValue)) (p : String)
    (hs : m.Pairwise fun a b => ltStr a.1 b.1 = true) :
    ((m.map mvToRec).find? fun x => x.key == p && x.kind == 1).map
        (fun r => (r.value, r.seq)) =
      match mtLookup m p with
      | some (.Scalar v s) => some (v, s)
      | _ => none := by
  induction m with
  | nil => rfl
  | cons e rest ih =>
    rcases List.pairwise_cons.mp hs with ⟨he, hrest⟩
    rcases e with ⟨k, mv⟩
    rw [List.map_cons]
    by_cases heq : k = p
    · subst heq
      cases mv with
      | Scalar v s =>
        rw [@List.find?_cons_of_pos _ (fun x => x.key == k && x.kind == 1)
            (mvToRec (k, .Scalar v s)) (rest.map mvToRec) (by simp [mvToRec])]
        rw [mtLookup, @List.find?_cons_of_pos _ (fun x => x.1 == k)
            (k, MemValue.Scalar v s) rest (by simp)]
        rfl
      | PointTomb s =>
        rw [@List.find?_cons_of_neg _ (fun x => x.key == k && x.kind == 1)
            (mvToRec (k, .PointTomb s)) (rest.map mvToRec) (by simp [mvToRec])]
        rw [mtLookup, @List.find?_cons_of_pos _ (fun x => x.1 == k)
            (k, MemValue.PointTomb s) rest (by simp)]
        have hnone : (rest.map mvToRec).find? (fun x => x.key == k && x.kind == 1) = none := by
          rw [List.find?_eq_none]
          intro x hx
          rcases List.mem_map.mp hx with ⟨a, ha, rfl⟩
          have hlt := he a ha
          have hane : a.1 ≠ k := by
            intro hh
            rw [hh, ltStr_irrefl] at hlt
            cases hlt
          simp [mvToRec_key, hane]
        rw [hnone]
        rfl
    · rw [@List.find?_cons_of_neg _ (fun x => x.key == p && x.kind == 1)
          (mvToRec (k, mv)) (rest.map mvToRec) (by simp [mvToRec_key, heq])]
      rw [mtLookup, @List.find?_cons_of_neg _ (fun x => x.1 == p) (k, mv) rest (by simp [heq])]
      exact ih hrest

theorem segLookupA_segOfMt (m : List (String × MemValue)) (p : String)
    (hs : m.Pairwise fun a b => ltStr a.1 b.1 = true) :
    segLookupA (segOfMt m) p =
      match mtLookup m p with
      | some (.Scalar v s) => some (v, s)
      | _ => none :=
  findSet_map m p hs

theorem get_point_eq (st : StoreSt) (p : String) (hp : endsSlash p = false) :
    Store.get st p =
      match mtLookup st.memtable p with
      | some (.Scalar v s) => if covered_by_subtomb st p s = false then some v else none
      | some (.PointTomb _) => none
      | none => (segCandidate st p).map fun c => c.1 := by
  rw [Store.get, if_neg (by simp [hp])]

theorem get_after_setCore_p (st : StoreSt) (p v : String) (hseq : SeqOk st)
    (hp : endsSlash p = false) :
    Store.get (setCore st p v true) p = some v := by
  obtain ⟨f1, f2, f3⟩ := setCore_true_fields st p v
  have hcov : covered_by_subtomb (setCore st p v true) p (st.seq + 1) = false := by
    apply covered_false
    rw [f3]
    intro e he
    rcases mem_stInsert _ _ _ _ he with rfl | h4
    · exact Or.inl (strHasPrefixB_append_slash_self p)
    · exact Or.inr (Nat.lt_succ_of_le (hseq.2.2 e h4))
  rw [get_point_eq _ _ hp, f2, mtLookup_mtInsert_self]
  show (if covered_by_subtomb (setCore st p v true) p (st.seq + 1) = false
      then some v else none) = some v
  rw [if_pos hcov]

theorem get_after_setCore_q (st : StoreSt) (p v q : String) (hseq : SeqOk st)
    (hq : strHasPrefixB q (p ++ "/") = true) (hqs : endsSlash q = false) :
    Store.get (setCore st p v true) q = none := by
  obtain ⟨f1, f2, f3⟩ := setCore_true_fields st p v
  have hne : q ≠ p := ne_of_strict_under q p hq
  have hmem : ((p ++ "/", st.seq + 1) : String × Nat) ∈ (setCore st p v true).subtombs := by
    rw [f3]
    exact stInsert_self_mem _ _ _
  have hcovq : ∀ s, s ≤ st.seq + 1 → covered_by_subtomb (setCore st p v true) q s = true :=
    fun s hs => covered_of_mem _ q s (p ++ "/") (st.seq + 1) hmem hq hs
  rw [get_point_eq _ _ hqs, f2, mtLookup_mtInsert_ne _ _ _ _ hne, mtLookup_mtInsert_ne _ _ _ _ hne]
  cases hml : mtLookup st.memtable q with
  | some mv =>
    cases mv with
    | Scalar v0 s0 =>
      have hs0 : s0 ≤ st.seq := by
        have := hseq.1 _ (mtLookup_mem _ _ _ hml)
        simpa [mvSeq] using this
      show (if covered_by_subtomb (setCore st p v true) q s0 = false then some v0 else none) =
        none
      rw [if_neg (by rw [hcovq s0 (by omega)]; decide)]
    | PointTomb s0 => rfl
  | none =>
    show (segCandidate (setCore st p v true) q).map (fun c => c.1) = none
    rw [segCandidate, fold_stepSeg_none]
    · rfl
    · intro seg hsg r hr hk hkind
      apply hcovq
      rw [allSegs_setCore] at hsg
      exact le_trans (hseq.2.1 seg hsg r hr) (by omega)

theorem segBloomSpec_foldl (recs : List ARec) :
    segBloomSpec recs =
      (recs.map fun r => utf8Bytes r.key).foldl bloomAdd (bloomNew 10000 7) := by
  rw [segBloomSpec, List.foldl_map]

theorem get_after_flush_setCore_p (st : StoreSt) (p v : String) (hre : Reach st)
    (hp : endsSlash p = false) :
    Store.get (flush_memtable (setCore st p v true)) p = some v := by
  obtain ⟨hseq, ⟨hl1, hl2, hman⟩, hmt, hbl⟩ := hre
  obtain ⟨f1, f2, f3⟩ := setCore_true_fields st p v
  obtain ⟨c0, c1, c2, c3⟩ := setCore_segs st p v true
  have hmtne : ¬ (setCore st p v true).memtable = [] := by
    rw [f2]
    exact mtInsert_ne_nil _ _ _
  have hsorted : (setCore st p v true).memtable.Pairwise fun a b => ltStr a.1 b.1 = true := by
    rw [f2]
    exact mtInsert_pairwise _ _ _ (mtInsert_pairwise _ _ _ hmt)
  have hlkup : segLookupA (segOfMt (setCore st p v true).memtable) p =
      some (v, st.seq + 1) := by
    rw [segLookupA_segOfMt _ _ hsorted, f2, mtLookup_mtInsert_self]
  have hcov : covered_by_subtomb (flush_memtable (setCore st p v true)) p (st.seq + 1) =
      false := by
    rw [covered_congr _ (setCore st p v true) _ _ (flush_memtable_subtombs _)]
    apply covered_false
    rw [f3]
    intro e he
    rcases mem_stInsert _ _ _ _ he with rfl | h4
    · exact Or.inl (strHasPrefixB_append_slash_self p)
    · exact Or.inr (Nat.lt_succ_of_le (hseq.2.2 e h4))
  have hbloom : bloomOk (segOfMt (setCore st p v true).memtable) p = true := by
    show might_contain (segBloomSpec ((setCore st p v true).memtable.map mvToRec))
      (utf8Bytes p) = true
    rw [segBloomSpec_foldl]
    apply bloom_fold_contains _ _ _ _ (by omega)
    rw [List.map_map]
    apply List.mem_map.mpr
    refine ⟨(p, MemValue.Scalar v (st.seq + 1)), ?_, rfl⟩
    rw [f2]
    exact mtInsert_self_mem _ _ _
  have hall : allSegs (flush_memtable (setCore st p v true)) =
      st.segmentsL0 ++ [segOfMt (setCore st p v true).memtable] := by
    rw [flush_memtable_eq _ hmtne]
    simp only [allSegs]
    rw [c0, c1, c2, hl1, hl2]
    simp
  rw [get_point_eq _ _ hp, flush_memtable_memtable]
  show (segCandidate (flush_memtable (setCore st p v true)) p).map (fun c => c.1) = some v
  rw [segCandidate, hall, List.foldl_append, List.foldl_cons, List.foldl_nil]
  rw [stepSeg_final _ p _ _ v (st.seq + 1) st.seq hbloom hlkup hcov
    (fold_stepSeg_bound _ p st.segmentsL0 st.seq
      (fun sg hsg r hr => hseq.2.1 sg
        (List.mem_append.mpr (Or.inl (List.mem_append.mpr (Or.inl hsg)))) r hr)
      none (fun x hx => nomatch hx)) (by omega)]
  rfl

theorem get_after_flush_setCore_q (st : StoreSt) (p v q : String) (hre : Reach st)
    (hq : strHasPrefixB q (p ++ "/") = true) (hqs : endsSlash q = false) :
    Store.get (flush_memtable (setCore st p v true)) q = none := by
  obtain ⟨hseq, ⟨hl1, hl2, hman⟩, hmt, hbl⟩ := hre
  obtain ⟨f1, f2, f3⟩ := setCore_true_fields st p v
  have hmtne : ¬ (setCore st p v true).memtable = [] := by
    rw [f2]
    exact mtInsert_ne_nil _ _ _
  have hcovq : ∀ s2, s2 ≤ st.seq + 1 →
      covered_by_subtomb (flush_memtable (setCore st p v true)) q s2 = true := by
    intro s2 hs2
    apply covered_of_mem _ q s2 (p ++ "/") (st.seq + 1) _ hq hs2
    rw [flush_memtable_subtombs, f3]
    exact stInsert_self_mem _ _ _
  rw [get_point_eq _ _ hqs, flush_memtable_memtable]
  show (segCandidate (flush_memtable (setCore st p v true)) q).map (fun c => c.1) = none
  rw [segCandidate, fold_stepSeg_none]
  · rfl
  · intro seg hsg r hr hk hkind
    apply hcovq
    rcases (mem_allSegs_flush _ hmtne seg).mp hsg with h4 | rfl
    · rw [allSegs_setCore] at h4
      exact le_trans (hseq.2.1 seg h4 r hr) (by omega)
    · rcases List.mem_map.mp hr with ⟨e, he, rfl⟩
      rw [mvToRec_seq]
      rw [f2] at he
      rcases mem_mtInsert _ _ _ _ he with rfl | h5
      · simp [mvSeq]
      · rcases mem_mtInsert _ _ _ _ h5 with rfl | h6
        · simp [mvSeq]
        · exact le_trans (hseq.1 e h6) (by omega)

/-- C8: after a successful `set(p, v, replace_subtree = true)` on any
reachable store, `get p` returns `v`, and `get q` returns none for every
non-slash-terminated `q` strictly under `p ++ "/"` — even though the subtree
tombstone, the point tombstone and the `SET` share one `seq`, because
coverage tests `tomb_seq ≥ record seq`. Both the direct case and the case
where the set triggers a memtable flush are covered. -/
theorem replace_subtree_masks (ms : List Mut) (p v : String) (st1 : StoreSt)
    (hp : endsSlash p = false)
    (hok : Store.set (runMuts ms) p v true = Except.ok st1) :
    Store.get st1 p = some v ∧
      ∀ q : String, strHasPrefixB q (p ++ "/") = true → endsSlash q = false →
        Store.get st1 q = none := by
  have hre := reach_runMuts ms
  have hst1 : st1 = setBody (runMuts ms) p v true := by
    rw [Store.set] at hok
    split at hok
    · cases hok
    · exact (Except.ok.inj hok).symm
  subst hst1
  rw [setBody]
  split
  · exact ⟨get_after_flush_setCore_p _ p v hre hp,
      fun q hq hqs => get_after_flush_setCore_q _ p v q hre hq hqs⟩
  · exact ⟨get_after_setCore_p _ p v hre.1 hp,
      fun q hq hqs => get_after_setCore_q _ p v q hre.1 hq hqs⟩

/-- Witness for C8 at a concrete input. -/
theorem replace_subtree_masks_witness :
    endsSlash "a" = false ∧
      Store.set (runMuts []) "a" "1" true = Except.ok (setBody (runMuts []) "a" "1" true) ∧
      Store.get (setBody (runMuts []) "a" "1" true) "a" = some "1" ∧
      Store.get (setBody (runMuts []) "a" "1" true) "a/x" = none := by
  refine ⟨by decide, by decide, ?_, ?_⟩
  · exact (replace_subtree_masks [] "a" "1" _ (by decide) (by decide)).1
  · exact (replace_subtree_masks [] "a" "1" _ (by decide) (by decide)).2 "a/x"
      (by decide) (by decide)

set_option maxRecDepth 1000000 in
/-- C4 (code-bug demonstration): a manifest-listed segment file whose magic
is not `"ELKYN03"` makes `Segment::open` fail, but `Store::open` swallows the
failure (`if let Ok`) and serves with the segment skipped; likewise a
mid-stream CRC mismatch in the WAL (here between two valid frames) merely
stops replay. `open` returns `ok` — it never fails with a corruption error. -/
theorem open_swallows_corruption :
    segOpenBytes (List.replicate 40 66) = Except.error () ∧
      storeOpenModel [{ seqHigh := 5, level := 0, fileBytes := some (List.replicate 40 66) }]
          (walMagicB ++ encFrame { seq := 1, kind := 1, key := [97], value := [98] } ++
            (le4 2 ++ [0, 0] ++ le4 0) ++
            encFrame { seq := 2, kind := 2, key := [97], value := [] }) =
        Except.ok ([], [], [],
          { seq := 1, memtable := [([97], .Scalar [98] 1)], memtableSize := 18,
            subtombs := [] }) := by
  decide

/-! ### Layer 3 for C6/C7: the segment writer's layout and the exact block
walks of `get_from_segment` / `scan_segment` on it -/

theorem leB_ltB_trans {a b c : List Nat} (h1 : leB a b = true) (h2 : ltB b c = true) :
    ltB a c = true := by
  have h1' : ltB b a = false := by
    revert h1
    rw [leB]
    cases ltB b a <;> simp
  by_cases hab : ltB a b = true
  · exact ltB_trans hab h2
  · rw [Bool.not_eq_true] at hab
    rw [eq_of_not_ltB hab h1']
    exact h2

theorem ltB_leB_trans {a b c : List Nat} (h1 : ltB a b = true) (h2 : leB b c = true) :
    ltB a c = true := by
  have h2' : ltB c b = false := by
    revert h2
    rw [leB]
    cases ltB c b <;> simp
  by_cases hbc : ltB b c = true
  · exact ltB_trans h1 hbc
  · rw [Bool.not_eq_true] at hbc
    rw [← eq_of_not_ltB hbc h2']
    exact h1

theorem ne_of_ltB {a b : List Nat} (h : ltB a b = true) : a ≠ b := by
  intro hh
  rw [hh, ltB_irrefl] at h
  cases h

theorem encRec_eq (r : SRec) :
    encRec r = le8 r.seq ++ (r.kind ::
      (le4 r.key.length ++ (le4 r.value.length ++ (r.key ++ r.value)))) := by
  rw [encRec]
  simp [List.append_assoc]

theorem encRec_length (r : SRec) :
    (encRec r).length = 17 + r.key.length + r.value.length := by
  rw [encRec_eq]
  simp [le4_length, le8_length, List.length_append]
  omega

theorem encRec_ne_nil (r : SRec) : encRec r ≠ [] := by
  intro h
  have h2 := congrArg List.length h
  rw [encRec_length] at h2
  simp at h2

theorem encGroup_nil : encGroup [] = [] := rfl

theorem encGroup_cons (r : SRec) (g : List SRec) :
    encGroup (r :: g) = encRec r ++ encGroup g := by
  rw [encGroup, encGroup, List.map_cons, List.flatten_cons]

theorem encGroup_append (g1 g2 : List SRec) :
    encGroup (g1 ++ g2) = encGroup g1 ++ encGroup g2 := by
  simp [encGroup]

theorem encGroup_ne_nil (g : List SRec) (h : g ≠ []) : encGroup g ≠ [] := by
  cases g with
  | nil => cases h rfl
  | cons r g =>
    rw [encGroup_cons]
    intro hh
    exact encRec_ne_nil r (List.append_eq_nil.mp hh).1

theorem encGroup_length_ge (g : List SRec) : g.length ≤ (encGroup g).length := by
  induction g with
  | nil => simp [encGroup_nil]
  | cons r g ih =>
    rw [encGroup_cons, List.length_cons, List.length_append, encRec_length]
    omega

theorem groupsBytes_nil : groupsBytes [] = [] := rfl

theorem groupsBytes_cons (g : List SRec) (gs : List (List SRec)) :
    groupsBytes (g :: gs) = encGroup g ++ groupsBytes gs := by
  rw [groupsBytes, groupsBytes, List.map_cons, List.flatten_cons]

theorem groupsBytes_append (gs1 gs2 : List (List SRec)) :
    groupsBytes (gs1 ++ gs2) = groupsBytes gs1 ++ groupsBytes gs2 := by
  simp [groupsBytes]

theorem hdK_cons (r : SRec) (g : List SRec) : hdK (r :: g) = r.key := rfl

theorem hdK_append_ne (g : List SRec) (t : List SRec) (h : g ≠ []) :
    hdK (g ++ t) = hdK g := by
  cases g with
  | nil => cases h rfl
  | cons r g => rfl

theorem hdK_mem (g : List SRec) (h : g ≠ []) : g.headD ⟨0, [], [], 0⟩ ∈ g := by
  cases g with
  | nil => cases h rfl
  | cons r g => exact List.mem_cons_self _ _

theorem idxOfGroups_nil (base : Nat) : idxOfGroups base [] = [] := rfl

theorem idxOfGroups_cons (base : Nat) (g : List SRec) (gs : List (List SRec)) :
    idxOfGroups base (g :: gs) = (hdK g, base) :: idxOfGroups (base + (encGroup g).length) gs :=
  rfl

theorem idxOfGroups_append (base : Nat) (gs1 gs2 : List (List SRec)) :
    idxOfGroups base (gs1 ++ gs2) =
      idxOfGroups base gs1 ++ idxOfGroups (base + (groupsBytes gs1).length) gs2 := by
  induction gs1 generalizing base with
  | nil => simp [idxOfGroups_nil, groupsBytes_nil]
  | cons g gs ih =>
    rw [List.cons_append, idxOfGroups_cons, ih, idxOfGroups_cons, groupsBytes_cons,
      List.length_append, List.cons_append, Nat.add_assoc]

theorem idxOfGroups_length (base : Nat) (gs : List (List SRec)) :
    (idxOfGroups base gs).length = gs.length := by
  induction gs generalizing base with
  | nil => rfl
  | cons g gs ih => rw [idxOfGroups_cons, List.length_cons, List.length_cons, ih]

theorem mem_idxOfGroups (base : Nat) (gs : List (List SRec)) (x : List Nat × Nat)
    (h : x ∈ idxOfGroups base gs) : ∃ p ∈ gs, x.1 = hdK p := by
  induction gs generalizing base with
  | nil => cases h
  | cons g gs ih =>
    rw [idxOfGroups_cons] at h
    rcases List.mem_cons.mp h with rfl | h2
    · exact ⟨g, List.mem_cons_self _ _, rfl⟩
    · obtain ⟨p, hp, hx⟩ := ih _ h2
      exact ⟨p, List.mem_cons_of_mem _ hp, hx⟩

theorem segMagic_length : segMagic.length = 7 := rfl

theorem loadBlock_slice (pre : List (List SRec)) (g : List SRec) (post : List (List SRec)) :
    loadBlock (segMagic ++ groupsBytes (pre ++ g :: post)) (7 + (groupsBytes pre).length)
      (encGroup g).length = some (encGroup g) := by
  rw [groupsBytes_append, groupsBytes_cons]
  have hassoc : segMagic ++ (groupsBytes pre ++ (encGroup g ++ groupsBytes post)) =
      (segMagic ++ groupsBytes pre) ++ (encGroup g ++ groupsBytes post) := by
    rw [List.append_assoc]
  rw [loadBlock, if_pos (by simp [List.length_append, segMagic_length]; omega), hassoc,
    drop_at_append _ _ _ (by rw [List.length_append, segMagic_length]),
    take_at_append _ _ _ rfl]

theorem parseLookup_rec (r : SRec) (rest key : List Nat) (fuel : Nat) (hwf : wfRec r) :
    parseLookup (fuel + 1) (encRec r ++ rest) key =
      if r.key = key ∧ r.kind = 1 then some (r.value, r.seq)
      else parseLookup fuel rest key := by
  obtain ⟨hkind, hseq, hkey, hval, hklen, hvlen⟩ := hwf
  have hbs : encRec r ++ rest = le8 r.seq ++ (r.kind ::
      (le4 r.key.length ++ (le4 r.value.length ++ (r.key ++ (r.value ++ rest))))) := by
    rw [encRec_eq]
    simp [List.append_assoc]
  have c1 : ¬ ((le8 r.seq ++ (r.kind :: (le4 r.key.length ++ (le4 r.value.length ++
      (r.key ++ (r.value ++ rest)))))).length ≤ 8) := by
    simp only [List.length_append, List.length_cons, le8_length, le4_length]
    omega
  have c2 : ¬ ((le4 r.key.length ++ (le4 r.value.length ++
      (r.key ++ (r.value ++ rest)))).length < 4) := by
    simp only [List.length_append, le4_length]
    omega
  have c3 : ¬ ((le4 r.value.length ++ (r.key ++ (r.value ++ rest))).length < 4) := by
    simp only [List.length_append, le4_length]
    omega
  have c4 : ¬ ((r.key ++ (r.value ++ rest)).length < r.key.length) := by
    simp only [List.length_append]
    omega
  have c5 : ¬ ((r.value ++ rest).length < r.value.length) := by
    simp only [List.length_append]
    omega
  rw [hbs]
  simp only [parseLookup,
    take_at_append (le8 r.seq) _ 8 (le8_length _),
    drop_at_append (le8 r.seq) _ 8 (le8_length _),
    take_at_append (le4 r.key.length) _ 4 (le4_length _),
    drop_at_append (le4 r.key.length) _ 4 (le4_length _),
    take_at_append (le4 r.value.length) _ 4 (le4_length _),
    drop_at_append (le4 r.value.length) _ 4 (le4_length _),
    take_at_append r.key _ r.key.length rfl,
    drop_at_append r.key _ r.key.length rfl,
    leNat_le8 _ hseq, leNat_le4 _ hklen, leNat_le4 _ hvlen]
  rw [if_neg c1, if_neg c2, if_neg c3, if_neg c4]
  by_cases hc : r.key = key ∧ r.kind = 1
  · rw [if_pos hc, if_pos hc, if_neg c5, take_at_append r.value rest r.value.length rfl]
  · rw [if_neg hc, if_neg hc, drop_at_append r.value rest r.value.length rfl]

theorem parseLookup_group (g : List SRec) (key : List Nat) :
    ∀ fuel, g.length < fuel → (∀ r ∈ g, wfRec r) →
      parseLookup fuel (encGroup g) key = findLk g key := by
  induction g with
  | nil =>
    intro fuel hf _
    cases fuel with
    | zero => omega
    | succ f =>
      show parseLookup (f + 1) [] key = none
      simp [parseLookup]
  | cons r g ih =>
    intro fuel hf hwf
    cases fuel with
    | zero => omega
    | succ f =>
      rw [encGroup_cons, parseLookup_rec r _ key f (hwf r (List.mem_cons_self _ _)), findLk]
      by_cases hc : r.key = key ∧ r.kind = 1
      · rw [if_pos hc,
          @List.find?_cons_of_pos _ (fun x => x.key == key && x.kind == 1) r g
            (by simp [hc.1, hc.2])]
        rfl
      · rw [if_neg hc,
          @List.find?_cons_of_neg _ (fun x => x.key == key && x.kind == 1) r g (by
            simp only [Bool.and_eq_true, beq_iff_eq]
            exact hc)]
        rw [List.length_cons] at hf
        exact ih f (by omega) fun x hx => hwf x (List.mem_cons_of_mem _ hx)

theorem parseScan_rec (r : SRec) (rest start stop : List Nat) (fuel : Nat) (hwf : wfRec r) :
    parseScan (fuel + 1) (encRec r ++ rest) start stop =
      if leB start r.key = true ∧ ltB r.key stop = true ∧ r.kind = 1
      then (r.key, r.value, r.seq) :: parseScan fuel rest start stop
      else parseScan fuel rest start stop := by
  obtain ⟨hkind, hseq, hkey, hval, hklen, hvlen⟩ := hwf
  have hbs : encRec r ++ rest = le8 r.seq ++ (r.kind ::
      (le4 r.key.length ++ (le4 r.value.length ++ (r.key ++ (r.value ++ rest))))) := by
    rw [encRec_eq]
    simp [List.append_assoc]
  have c1 : ¬ ((le8 r.seq ++ (r.kind :: (le4 r.key.length ++ (le4 r.value.length ++
      (r.key ++ (r.value ++ rest)))))).length ≤ 8) := by
    simp only [List.length_append, List.length_cons, le8_length, le4_length]
    omega
  have c2 : ¬ ((le4 r.key.length ++ (le4 r.value.length ++
      (r.key ++ (r.value ++ rest)))).length < 8) := by
    simp only [List.length_append, le4_length]
    omega
  have c4 : ¬ ((r.key ++ (r.value ++ rest)).length < r.key.length + r.value.length) := by
    simp only [List.length_append]
    omega
  rw [hbs]
  simp only [parseScan,
    take_at_append (le8 r.seq) _ 8 (le8_length _),
    drop_at_append (le8 r.seq) _ 8 (le8_length _),
    take_at_append (le4 r.key.length) _ 4 (le4_length _),
    drop_at_append (le4 r.key.length) _ 4 (le4_length _),
    take_at_append (le4 r.value.length) _ 4 (le4_length _),
    drop_at_append (le4 r.value.length) _ 4 (le4_length _),
    take_at_append r.key _ r.key.length rfl,
    drop_at_append r.key _ r.key.length rfl,
    take_at_append r.value rest r.value.length rfl,
    drop_at_append r.value rest r.value.length rfl,
    leNat_le8 _ hseq, leNat_le4 _ hklen, leNat_le4 _ hvlen]
  rw [if_neg c1, if_neg c2, if_neg c4]

theorem parseScan_group (g : List SRec) (start stop : List Nat) :
    ∀ fuel, g.length < fuel → (∀ r ∈ g, wfRec r) →
      parseScan fuel (encGroup g) start stop = scanFilter g start stop := by
  induction g with
  | nil =>
    intro fuel hf _
    cases fuel with
    | zero => omega
    | succ f =>
      show parseScan (f + 1) [] start stop = []
      simp [parseScan]
  | cons r g ih =>
    intro fuel hf hwf
    cases fuel with
    | zero => omega
    | succ f =>
      rw [encGroup_cons, parseScan_rec r _ start stop f (hwf r (List.mem_cons_self _ _))]
      rw [List.length_cons] at hf
      have ih2 := ih f (by omega) fun x hx => hwf x (List.mem_cons_of_mem _ hx)
      rw [scanFilter, List.filter_cons]
      by_cases hc : leB start r.key = true ∧ ltB r.key stop = true ∧ r.kind = 1
      · rw [if_pos hc, if_pos (by simp [hc.1, hc.2.1, hc.2.2]), List.map_cons, ih2]
        rfl
      · rw [if_neg hc, if_neg (by
          simp only [Bool.and_eq_true, beq_iff_eq, and_assoc]
          exact hc)]
        exact ih2

theorem addRec_eq_of_empty (w : WState) (r : SRec) (hcur : w.curBlock = []) :
    addRec w r =
      { w with curBlock := encRec r, index := w.index ++ [(r.key, w.written)],
               seqHigh := max w.seqHigh r.seq } := by
  have hfb : flushBlock w = w := by rw [flushBlock, if_pos hcur]
  have hif : (if BLOCK_SIZE < w.curBlock.length + (encRec r).length
      then flushBlock w else w) = w := by
    rw [hfb]
    split <;> rfl
  simp only [addRec, hif]
  rw [if_pos hcur]
  simp [hcur]

theorem addRec_eq_of_fit (w : WState) (r : SRec) (hcur : ¬ w.curBlock = [])
    (hov : ¬ BLOCK_SIZE < w.curBlock.length + (encRec r).length) :
    addRec w r =
      { w with curBlock := w.curBlock ++ encRec r, seqHigh := max w.seqHigh r.seq } := by
  have hif : (if BLOCK_SIZE < w.curBlock.length + (encRec r).length
      then flushBlock w else w) = w := by
    rw [if_neg hov]
  simp only [addRec, hif]
  rw [if_neg hcur]

theorem addRec_eq_of_flush (w : WState) (r : SRec) (hcur : ¬ w.curBlock = [])
    (hov : BLOCK_SIZE < w.curBlock.length + (encRec r).length) :
    addRec w r =
      { w with fileBytes := w.fileBytes ++ w.curBlock,
               written := w.written + w.curBlock.length,
               curBlock := encRec r,
               index := w.index ++ [(r.key, w.written + w.curBlock.length)],
               seqHigh := max w.seqHigh r.seq } := by
  have hif : (if BLOCK_SIZE < w.curBlock.length + (encRec r).length
      then flushBlock w else w) =
      { w with fileBytes := w.fileBytes ++ w.curBlock,
               written := w.written + w.curBlock.length, curBlock := [] } := by
    rw [if_pos hov, flushBlock, if_neg hcur]
  simp only [addRec, hif]
  simp

theorem winv_init : WInv [] [] winit :=
  ⟨by simp [winit, groupsBytes_nil], by simp [winit, groupsBytes_nil], rfl,
   by simp [winit, idxOfGroups_nil], by intro g hg; cases hg⟩

theorem winv_add (gs : List (List SRec)) (cur : List SRec) (w : WState) (r : SRec)
    (h : WInv gs cur w) :
    (cur = [] ∧ WInv gs [r] (addRec w r)) ∨
    (cur ≠ [] ∧ WInv gs (cur ++ [r]) (addRec w r)) ∨
    (cur ≠ [] ∧ WInv (gs ++ [cur]) [r] (addRec w r)) := by
  obtain ⟨h1, h2, h3, h4, h5⟩ := h
  by_cases hcur : cur = []
  · subst hcur
    rw [if_pos rfl, List.append_nil] at h4
    left
    refine ⟨rfl, ?_⟩
    rw [addRec_eq_of_empty w r (by rw [h3, encGroup_nil])]
    refine ⟨h1, h2, ?_, ?_, h5⟩
    · show encRec r = encGroup [r]
      rw [encGroup_cons, encGroup_nil, List.append_nil]
    · show w.index ++ [(r.key, w.written)] = _
      rw [h4, h2, if_neg (by simp), idxOfGroups_append, idxOfGroups_cons, idxOfGroups_nil,
        hdK_cons]
  · rw [if_neg hcur] at h4
    have hcb : ¬ w.curBlock = [] := by
      rw [h3]
      exact encGroup_ne_nil cur hcur
    by_cases hov : BLOCK_SIZE < w.curBlock.length + (encRec r).length
    · right; right
      refine ⟨hcur, ?_⟩
      rw [addRec_eq_of_flush w r hcb hov]
      refine ⟨?_, ?_, ?_, ?_, ?_⟩
      · show w.fileBytes ++ w.curBlock = _
        rw [h1, h3, groupsBytes_append, groupsBytes_cons, groupsBytes_nil, List.append_nil,
          List.append_assoc]
      · show w.written + w.curBlock.length = _
        rw [h2, h3, groupsBytes_append, groupsBytes_cons, groupsBytes_nil, List.append_nil,
          List.length_append]
        omega
      · show encRec r = encGroup [r]
        rw [encGroup_cons, encGroup_nil, List.append_nil]
      · show w.index ++ [(r.key, w.written + w.curBlock.length)] = _
        rw [h4, h2, h3, if_neg (by simp)]
        simp [idxOfGroups_append, idxOfGroups_cons, idxOfGroups_nil, hdK_cons,
          groupsBytes_append, groupsBytes_cons, groupsBytes_nil, Nat.add_assoc]
      · intro g hg
        rcases List.mem_append.mp hg with hh | hh
        · exact h5 g hh
        · rcases List.mem_cons.mp hh with rfl | hh2
          · exact hcur
          · cases hh2
    · right; left
      refine ⟨hcur, ?_⟩
      rw [addRec_eq_of_fit w r hcb hov]
      refine ⟨h1, h2, ?_, ?_, h5⟩
      · show w.curBlock ++ encRec r = _
        rw [h3, encGroup_append, encGroup_cons, encGroup_nil, List.append_nil]
      · show w.index = _
        rw [h4, if_neg (by simp), idxOfGroups_append, idxOfGroups_append, idxOfGroups_cons,
          idxOfGroups_cons, hdK_append_ne cur [r] hcur]
        simp only [idxOfGroups_nil]

theorem winv_fold (entries : List SRec) (hne : entries ≠ []) :
    ∃ gs cur, gs.flatten ++ cur = entries ∧ cur ≠ [] ∧ (∀ g ∈ gs, g ≠ []) ∧
      WInv gs cur (entries.foldl addRec winit) := by
  induction entries using List.reverseRecOn with
  | nil => cases hne rfl
  | append_singleton init r ih =>
    rw [List.foldl_append, List.foldl_cons, List.foldl_nil]
    by_cases hinit : init = []
    · subst hinit
      rcases winv_add [] [] winit r winv_init with ⟨_, hW⟩ | ⟨hc, _⟩ | ⟨hc, _⟩
      · refine ⟨[], [r], by simp, by simp, ?_, hW⟩
        intro g hg
        cases hg
      · cases hc rfl
      · cases hc rfl
    · obtain ⟨gs, cur, hflat, hcne, hgne, hW⟩ := ih hinit
      rcases winv_add gs cur _ r hW with ⟨hc, _⟩ | ⟨_, hW2⟩ | ⟨_, hW2⟩
      · cases hcne hc
      · exact ⟨gs, cur ++ [r], by rw [← List.append_assoc, hflat], by simp, hgne, hW2⟩
      · refine ⟨gs ++ [cur], [r], ?_, by simp, ?_, hW2⟩
        · rw [List.flatten_append, List.flatten_cons, List.flatten_nil, List.append_nil, hflat]
        · intro g hg
          rcases List.mem_append.mp hg with hh | hh
          · exact hgne g hh
          · rcases List.mem_cons.mp hh with rfl | hh2
            · exact hcne
            · cases hh2

theorem buildSeg_fields (entries : List SRec) (hne : entries ≠ []) :
    ∃ gs, gs.flatten = entries ∧ gs ≠ [] ∧ (∀ g ∈ gs, g ≠ []) ∧
      (buildSeg entries).fileBytes = segMagic ++ groupsBytes gs ∧
      (buildSeg entries).index = idxOfGroups 7 gs ∧
      (buildSeg entries).indexStart = 7 + (groupsBytes gs).length := by
  obtain ⟨gs, cur, hflat, hcne, hgne, hW⟩ := winv_fold entries hne
  obtain ⟨h1, h2, h3, h4, h5⟩ := hW
  rw [if_neg hcne] at h4
  have hcb : ¬ (entries.foldl addRec winit).curBlock = [] := by
    rw [h3]
    exact encGroup_ne_nil cur hcne
  have hfb : flushBlock (entries.foldl addRec winit) =
      { entries.foldl addRec winit with
          fileBytes := (entries.foldl addRec winit).fileBytes ++
            (entries.foldl addRec winit).curBlock,
          written := (entries.foldl addRec winit).written +
            (entries.foldl addRec winit).curBlock.length,
          curBlock := [] } := by
    rw [flushBlock, if_neg hcb]
  refine ⟨gs ++ [cur], ?_, by simp, ?_, ?_, ?_, ?_⟩
  · rw [List.flatten_append, List.flatten_cons, List.flatten_nil, List.append_nil, hflat]
  · intro g hg
    rcases List.mem_append.mp hg with hh | hh
    · exact hgne g hh
    · rcases List.mem_cons.mp hh with rfl | hh2
      · exact hcne
      · cases hh2
  · show (finishW (entries.foldl addRec winit)).fileBytes = _
    simp only [finishW, hfb]
    rw [h1, h3, groupsBytes_append, groupsBytes_cons, groupsBytes_nil, List.append_nil,
      List.append_assoc]
  · show (finishW (entries.foldl addRec winit)).index = _
    simp only [finishW, hfb]
    exact h4
  · show (finishW (entries.foldl addRec winit)).indexStart = _
    simp only [finishW, hfb]
    rw [h2, h3, groupsBytes_append, groupsBytes_cons, groupsBytes_nil, List.append_nil,
      List.length_append]
    omega

theorem pairwise_cases {α : Type} {R : α → α → Prop} :
    ∀ {l : List α}, l.Pairwise R → ∀ a ∈ l, ∀ b ∈ l, a = b ∨ R a b ∨ R b a := by
  intro l hp
  induction hp with
  | nil => intro a ha; cases ha
  | cons hhead htail ih =>
    intro a ha b hb
    rcases List.mem_cons.mp ha with rfl | ha2
    · rcases List.mem_cons.mp hb with rfl | hb2
      · exact Or.inl rfl
      · exact Or.inr (Or.inl (hhead b hb2))
    · rcases List.mem_cons.mp hb with rfl | hb2
      · exact Or.inr (Or.inr (hhead a ha2))
      · exact ih a ha2 b hb2

theorem find?_append_lnone {α : Type} (p : α → Bool) (l1 l2 : List α)
    (h : l1.find? p = none) : (l1 ++ l2).find? p = l2.find? p := by
  induction l1 with
  | nil => rfl
  | cons a t ih =>
    by_cases hpa : p a = true
    · rw [List.find?_cons_of_pos _ hpa] at h
      cases h
    · rw [List.find?_cons_of_neg _ hpa] at h
      rw [List.cons_append, List.find?_cons_of_neg _ hpa]
      exact ih h

theorem find?_append_rnone {α : Type} (p : α → Bool) (l1 l2 : List α)
    (h : l2.find? p = none) : (l1 ++ l2).find? p = l1.find? p := by
  induction l1 with
  | nil => exact h
  | cons a t ih =>
    by_cases hpa : p a = true
    · rw [List.cons_append, List.find?_cons_of_pos _ hpa, List.find?_cons_of_pos _ hpa]
    · rw [List.cons_append, List.find?_cons_of_neg _ hpa, List.find?_cons_of_neg _ hpa]
      exact ih

theorem getD_at_append_pair (xs : List (List Nat × Nat)) (y : List Nat × Nat)
    (ys : List (List Nat × Nat)) (n : Nat) (h : xs.length = n) :
    (xs ++ y :: ys).getD n ([], 0) = y := by
  rw [← h, List.getD_eq_getElem?_getD, List.getElem?_append_right (le_refl _)]
  simp

theorem idxLookup_nil (key : List Nat) : idxLookup [] key = none := rfl

theorem idxLookup_cons (e : List Nat × Nat) (rest : List (List Nat × Nat)) (key : List Nat) :
    idxLookup (e :: rest) key =
      if ltB key e.1 then none
      else
        match idxLookup rest key with
        | some j => some (j + 1)
        | none => some 0 := rfl

theorem idxLookup_split (gs : List (List SRec)) (key : List Nat) :
    ∀ base : Nat, gs.Pairwise (fun g1 g2 => ltB (hdK g1) (hdK g2) = true) →
      (idxLookup (idxOfGroups base gs) key = none ∧ ∀ g ∈ gs, ltB key (hdK g) = true) ∨
      (∃ pre g post, gs = pre ++ g :: post ∧
        idxLookup (idxOfGroups base gs) key = some pre.length ∧
        ltB key (hdK g) = false ∧ ∀ p ∈ post, ltB key (hdK p) = true) := by
  induction gs with
  | nil =>
    intro base _
    exact Or.inl ⟨rfl, by intro g hg; cases hg⟩
  | cons g rest ih =>
    intro base hp
    rcases List.pairwise_cons.mp hp with ⟨hhead, htail⟩
    rw [idxOfGroups_cons, idxLookup_cons]
    by_cases h0 : ltB key (hdK g) = true
    · rw [if_pos h0]
      refine Or.inl ⟨rfl, ?_⟩
      intro p hp2
      rcases List.mem_cons.mp hp2 with rfl | hp3
      · exact h0
      · exact ltB_trans h0 (hhead p hp3)
    · rw [Bool.not_eq_true] at h0
      rw [if_neg (by rw [h0]; exact fun hh => nomatch hh)]
      rcases ih (base + (encGroup g).length) htail with ⟨hnone, hall⟩ |
        ⟨pre, g1, post, hsplit, hsome, hflt, hpost⟩
      · rw [hnone]
        right
        exact ⟨[], g, rest, rfl, rfl, h0, hall⟩
      · rw [hsome]
        right
        exact ⟨g :: pre, g1, post, by rw [hsplit, List.cons_append], rfl, hflt, hpost⟩

theorem heads_sorted (gs : List (List SRec)) (hgne : ∀ g ∈ gs, g ≠ [])
    (hcross : gs.Pairwise fun g1 g2 => ∀ a ∈ g1, ∀ b ∈ g2, ltB a.key b.key = true) :
    gs.Pairwise fun g1 g2 => ltB (hdK g1) (hdK g2) = true := by
  refine hcross.imp_of_mem ?_
  intro g1 g2 h1 h2 hR
  exact hR _ (hdK_mem g1 (hgne g1 h1)) _ (hdK_mem g2 (hgne g2 h2))

theorem hdK_min (g : List SRec) (hg : g.Pairwise fun a b => ltB a.key b.key = true)
    (r : SRec) (hr : r ∈ g) : leB (hdK g) r.key = true := by
  cases g with
  | nil => cases hr
  | cons a t =>
    rcases List.mem_cons.mp hr with rfl | h2
    · exact leB_refl _
    · exact leB_of_ltB ((List.pairwise_cons.mp hg).1 r h2)

theorem lookupSeg_buildSeg (entries : List SRec) (key : List Nat)
    (hwf : ∀ r ∈ entries, wfRec r)
    (hsorted : entries.Pairwise fun a b => ltB a.key b.key = true) :
    lookupSeg (buildSeg entries) key = .ok (findLk entries key) := by
  by_cases hne : entries = []
  · subst hne
    rfl
  · obtain ⟨gs, hflat, hgsne, hgne, hfile, hidx, hstart⟩ := buildSeg_fields entries hne
    have hsorted2 : gs.flatten.Pairwise fun a b => ltB a.key b.key = true := by
      rw [hflat]
      exact hsorted
    rw [List.pairwise_flatten] at hsorted2
    obtain ⟨hin, hcross⟩ := hsorted2
    have hheads := heads_sorted gs hgne hcross
    rcases idxLookup_split gs key 7 hheads with ⟨hnone, hall⟩ |
      ⟨pre, g, post, hsub, hsome, hflt, hpost⟩
    · have hfind : findLk entries key = none := by
        have hf : entries.find? (fun r => r.key == key && r.kind == 1) = none := by
          rw [List.find?_eq_none]
          intro r hr
          rw [← hflat] at hr
          rcases List.mem_flatten.mp hr with ⟨g, hg, hrg⟩
          have h3 : ltB key r.key = true :=
            ltB_leB_trans (hall g hg) (hdK_min g (hin g hg) r hrg)
          have h4 : r.key ≠ key := (ne_of_ltB h3).symm
          simp [h4]
        rw [findLk, hf]
        rfl
      simp only [lookupSeg, hidx, hnone, hfind]
    · have hgne2 : g ≠ [] :=
        hgne g (by rw [hsub]; exact List.mem_append.mpr (Or.inr (List.mem_cons_self _ _)))
      have hwfg : ∀ r ∈ g, wfRec r := by
        intro r hr
        apply hwf
        rw [← hflat, hsub, List.flatten_append, List.flatten_cons]
        exact List.mem_append.mpr (Or.inr (List.mem_append.mpr (Or.inl hr)))
      have hidxeq : idxOfGroups 7 gs = idxOfGroups 7 pre ++
          ((hdK g, 7 + (groupsBytes pre).length) ::
            idxOfGroups (7 + (groupsBytes pre).length + (encGroup g).length) post) := by
        rw [hsub, idxOfGroups_append, idxOfGroups_cons]
      have hgetDi : (idxOfGroups 7 gs).getD pre.length ([], 0) =
          (hdK g, 7 + (groupsBytes pre).length) := by
        rw [hidxeq]
        exact getD_at_append_pair _ _ _ _ (idxOfGroups_length _ _)
      have hlength : (idxOfGroups 7 gs).length = pre.length + 1 + post.length := by
        rw [idxOfGroups_length, hsub, List.length_append, List.length_cons]
        omega
      have hb2 : 7 + (groupsBytes (pre ++ [g])).length =
          7 + (groupsBytes pre).length + (encGroup g).length := by
        rw [groupsBytes_append, groupsBytes_cons, groupsBytes_nil, List.append_nil,
          List.length_append]
        omega
      have hnxt : (if pre.length + 1 < (idxOfGroups 7 gs).length
          then ((idxOfGroups 7 gs).getD (pre.length + 1) ([], 0)).2
          else (buildSeg entries).indexStart) =
          7 + (groupsBytes pre).length + (encGroup g).length := by
        cases post with
        | nil =>
          rw [if_neg (by rw [hlength, List.length_nil]; omega)]
          rw [hstart, hsub]
          exact hb2
        | cons g2 post2 =>
          rw [if_pos (by rw [hlength, List.length_cons]; omega)]
          have hget2 : (idxOfGroups 7 gs).getD (pre.length + 1) ([], 0) =
              (hdK g2, 7 + (groupsBytes (pre ++ [g])).length) := by
            have hsub2 : gs = (pre ++ [g]) ++ g2 :: post2 := by rw [hsub]; simp
            rw [hsub2, idxOfGroups_append, idxOfGroups_cons]
            refine getD_at_append_pair _ _ _ _ ?_
            rw [idxOfGroups_length, List.length_append]
            rfl
          rw [hget2, hb2]
      have hload : loadBlock (buildSeg entries).fileBytes (7 + (groupsBytes pre).length)
          (7 + (groupsBytes pre).length + (encGroup g).length -
            (7 + (groupsBytes pre).length)) = some (encGroup g) := by
        rw [hfile, hsub,
          show 7 + (groupsBytes pre).length + (encGroup g).length -
            (7 + (groupsBytes pre).length) = (encGroup g).length from by omega]
        exact loadBlock_slice pre g post
      have hcross2 := (List.pairwise_append.mp (by rw [← hsub]; exact hcross)).2.2
      have hflat2 : entries = List.flatten pre ++ (g ++ List.flatten post) := by
        rw [← hflat, hsub, List.flatten_append, List.flatten_cons]
      have hprenone : (List.flatten pre).find? (fun x => x.key == key && x.kind == 1) =
          none := by
        rw [List.find?_eq_none]
        intro r hr
        rcases List.mem_flatten.mp hr with ⟨p, hp, hrp⟩
        have h1 : ltB r.key (hdK g) = true :=
          hcross2 p hp g (List.mem_cons_self _ _) r hrp _ (hdK_mem g hgne2)
        have h2 : leB (hdK g) key = true := by
          rw [leB, hflt]
          rfl
        have h4 : r.key ≠ key := ne_of_ltB (ltB_leB_trans h1 h2)
        simp [h4]
      have hpostnone : (List.flatten post).find? (fun x => x.key == key && x.kind == 1) =
          none := by
        rw [List.find?_eq_none]
        intro r hr
        rcases List.mem_flatten.mp hr with ⟨p, hp, hrp⟩
        have hpin : p ∈ gs := by
          rw [hsub]
          exact List.mem_append.mpr (Or.inr (List.mem_cons_of_mem _ hp))
        have h3 : ltB key r.key = true :=
          ltB_leB_trans (hpost p hp) (hdK_min p (hin p hpin) r hrp)
        have h4 : r.key ≠ key := (ne_of_ltB h3).symm
        simp [h4]
      have hfind : findLk entries key = findLk g key := by
        rw [findLk, findLk, hflat2, find?_append_lnone _ _ _ hprenone,
          find?_append_rnone _ _ _ hpostnone]
      have hparse : parseLookup ((encGroup g).length + 1) (encGroup g) key = findLk g key :=
        parseLookup_group g key _ (by have := encGroup_length_ge g; omega) hwfg
      simp only [lookupSeg, hidx, hsome, hgetDi, hnxt, hload, hparse, hfind]

theorem find_next_offset (pre : List (List SRec)) (g : List SRec) (post : List (List SRec))
    (hheads : (pre ++ g :: post).Pairwise fun g1 g2 => ltB (hdK g1) (hdK g2) = true) :
    ((((idxOfGroups 7 (pre ++ g :: post)).find? fun x => ltB (hdK g) x.1).map
        fun x => x.2).getD (7 + (groupsBytes (pre ++ g :: post)).length)) =
      7 + (groupsBytes pre).length + (encGroup g).length := by
  obtain ⟨hp1, hp2, hp3⟩ := List.pairwise_append.mp hheads
  rw [idxOfGroups_append, idxOfGroups_cons]
  have hprenone : (idxOfGroups 7 pre).find? (fun x => ltB (hdK g) x.1) = none := by
    rw [List.find?_eq_none]
    intro x hx
    obtain ⟨p, hp, hx1⟩ := mem_idxOfGroups _ _ _ hx
    have h1 : ltB (hdK p) (hdK g) = true := hp3 p hp g (List.mem_cons_self _ _)
    simp [hx1, ltB_asymm h1]
  rw [find?_append_lnone _ _ _ hprenone]
  rw [@List.find?_cons_of_neg _ (fun x => ltB (hdK g) x.1)
    (hdK g, 7 + (groupsBytes pre).length) _ (by simp [ltB_irrefl])]
  cases post with
  | nil =>
    rw [idxOfGroups_nil, List.find?_nil]
    show 7 + (groupsBytes (pre ++ [g])).length = _
    rw [groupsBytes_append, groupsBytes_cons, groupsBytes_nil, List.append_nil,
      List.length_append]
    omega
  | cons g2 post2 =>
    have hgg2 : ltB (hdK g) (hdK g2) = true :=
      (List.pairwise_cons.mp hp2).1 g2 (List.mem_cons_self _ _)
    rw [idxOfGroups_cons, @List.find?_cons_of_pos _ (fun x => ltB (hdK g) x.1)
      (hdK g2, 7 + (groupsBytes pre).length + (encGroup g).length) _ (by simp [hgg2])]
    rfl

theorem scanGo_suffix (gs : List (List SRec)) (start stop : List Nat)
    (hwf : ∀ g ∈ gs, ∀ r ∈ g, wfRec r) (hgne : ∀ g ∈ gs, g ≠ [])
    (hheads : gs.Pairwise fun g1 g2 => ltB (hdK g1) (hdK g2) = true) :
    ∀ suf pre, gs = pre ++ suf →
      scanGo (segMagic ++ groupsBytes gs) (idxOfGroups 7 gs)
        (7 + (groupsBytes gs).length) start stop
        (idxOfGroups (7 + (groupsBytes pre).length) suf) =
      .ok ((suf.map fun g => if leB start (hdK g) && ltB (hdK g) stop
            then scanFilter g start stop else []).flatten) := by
  intro suf
  induction suf with
  | nil =>
    intro pre h
    rfl
  | cons g rest ih =>
    intro pre hsplit
    rw [idxOfGroups_cons]
    have hrec := ih (pre ++ [g]) (by rw [hsplit, List.append_assoc]; rfl)
    have hbase : 7 + (groupsBytes (pre ++ [g])).length =
        7 + (groupsBytes pre).length + (encGroup g).length := by
      rw [groupsBytes_append, groupsBytes_cons, groupsBytes_nil, List.append_nil,
        List.length_append]
      omega
    rw [hbase] at hrec
    have hnxt : ((((idxOfGroups 7 gs).find? fun x => ltB (hdK g) x.1).map fun x => x.2).getD
        (7 + (groupsBytes gs).length)) =
        7 + (groupsBytes pre).length + (encGroup g).length := by
      rw [hsplit]
      exact find_next_offset pre g rest (by rw [← hsplit]; exact hheads)
    have hload : loadBlock (segMagic ++ groupsBytes gs) (7 + (groupsBytes pre).length)
        (7 + (groupsBytes pre).length + (encGroup g).length -
          (7 + (groupsBytes pre).length)) = some (encGroup g) := by
      rw [show 7 + (groupsBytes pre).length + (encGroup g).length -
          (7 + (groupsBytes pre).length) = (encGroup g).length from by omega, hsplit]
      exact loadBlock_slice pre g rest
    have hparse : parseScan ((encGroup g).length + 1) (encGroup g) start stop =
        scanFilter g start stop :=
      parseScan_group g start stop _ (by have := encGroup_length_ge g; omega)
        (hwf g (by rw [hsplit]; exact List.mem_append.mpr (Or.inr (List.mem_cons_self _ _))))
    rw [List.map_cons, List.flatten_cons]
    by_cases hc : leB start (hdK g) = true ∧ ltB (hdK g) stop = true
    · simp only [scanGo]
      rw [if_pos hc, hnxt, hload, hrec]
      show Except.ok (parseScan ((encGroup g).length + 1) (encGroup g) start stop ++
        ((rest.map fun g => if leB start (hdK g) && ltB (hdK g) stop
          then scanFilter g start stop else []).flatten)) = _
      rw [hparse, if_pos (by rw [hc.1, hc.2]; rfl)]
    · simp only [scanGo]
      rw [if_neg hc, hrec]
      have hb : (leB start (hdK g) && ltB (hdK g) stop) = false := by
        cases hA : leB start (hdK g) <;> cases hB : ltB (hdK g) stop <;> simp_all
      rw [hb, if_neg (by decide)]
      rfl

theorem scanFilter_flatten (gs : List (List SRec)) (start stop : List Nat) :
    scanFilter gs.flatten start stop = (gs.map fun g => scanFilter g start stop).flatten := by
  induction gs with
  | nil => rfl
  | cons g rest ih =>
    rw [List.flatten_cons, scanFilter, List.filter_append, List.map_append, List.map_cons,
      List.flatten_cons, ← ih]
    rfl

theorem scanFilter_empty_of_stop (g : List SRec) (start stop : List Nat)
    (hg : g.Pairwise fun a b => ltB a.key b.key = true)
    (h : ltB (hdK g) stop = false) : scanFilter g start stop = [] := by
  rw [scanFilter]
  have hfil : g.filter (fun r => leB start r.key && ltB r.key stop && r.kind == 1) = [] := by
    rw [List.filter_eq_nil_iff]
    intro r hr
    have h1 : leB (hdK g) r.key = true := hdK_min g hg r hr
    have h2 : ltB r.key stop = false := by
      cases h3 : ltB r.key stop
      · rfl
      · rw [leB_ltB_trans h1 h3] at h
        cases h
    simp [h2]
  rw [hfil]
  rfl

theorem scanSeg_buildSeg_spec (entries : List SRec) (start stop : List Nat)
    (hwf : ∀ r ∈ entries, wfRec r)
    (hsorted : entries.Pairwise fun a b => ltB a.key b.key = true) :
    ∃ out, scanSeg (buildSeg entries) start stop = .ok out ∧
      (∀ e ∈ out, ∃ r ∈ entries, r.kind = 1 ∧ leB start r.key = true ∧
        ltB r.key stop = true ∧ e = (r.key, r.value, r.seq)) ∧
      ((∀ r ∈ entries, leB start r.key = true) → out = scanFilter entries start stop) := by
  by_cases hne : entries = []
  · subst hne
    refine ⟨[], rfl, ?_, ?_⟩
    · intro e he
      cases he
    · intro _
      rfl
  · obtain ⟨gs, hflat, hgsne, hgne, hfile, hidx, hstart2⟩ := buildSeg_fields entries hne
    have hsorted2 : gs.flatten.Pairwise fun a b => ltB a.key b.key = true := by
      rw [hflat]
      exact hsorted
    rw [List.pairwise_flatten] at hsorted2
    obtain ⟨hin, hcross⟩ := hsorted2
    have hheads := heads_sorted gs hgne hcross
    have hwf2 : ∀ g ∈ gs, ∀ r ∈ g, wfRec r := by
      intro g hg r hr
      apply hwf
      rw [← hflat]
      exact List.mem_flatten.mpr ⟨g, hg, hr⟩
    have hgo := scanGo_suffix gs start stop hwf2 hgne hheads gs [] rfl
    rw [show (7 + (groupsBytes ([] : List (List SRec))).length) = 7 from rfl] at hgo
    refine ⟨(gs.map fun g => if leB start (hdK g) && ltB (hdK g) stop
      then scanFilter g start stop else []).flatten, ?_, ?_, ?_⟩
    · simp only [scanSeg]
      rw [hfile, hidx, hstart2]
      exact hgo
    · intro e he
      rcases List.mem_flatten.mp he with ⟨bl, hbl, hebl⟩
      rcases List.mem_map.mp hbl with ⟨g, hg, rfl⟩
      by_cases hcond : (leB start (hdK g) && ltB (hdK g) stop) = true
      · rw [if_pos hcond] at hebl
        rcases List.mem_map.mp hebl with ⟨r, hrf, rfl⟩
        rcases List.mem_filter.mp hrf with ⟨hrg, hpred⟩
        simp only [Bool.and_eq_true, beq_iff_eq] at hpred
        refine ⟨r, ?_, hpred.2, hpred.1.1, hpred.1.2, rfl⟩
        rw [← hflat]
        exact List.mem_flatten.mpr ⟨g, hg, hrg⟩
      · rw [if_neg hcond] at hebl
        cases hebl
    · intro hstart3
      have hmapeq : (gs.map fun g => if leB start (hdK g) && ltB (hdK g) stop
          then scanFilter g start stop else []) =
          gs.map fun g => scanFilter g start stop := by
        apply List.map_congr_left
        intro g hg
        have hstartg : leB start (hdK g) = true :=
          hstart3 _ (by rw [← hflat]; exact List.mem_flatten.mpr ⟨g, hg, hdK_mem g (hgne g hg)⟩)
        by_cases hstop : ltB (hdK g) stop = true
        · rw [if_pos (by rw [hstartg, hstop]; rfl)]
        · rw [Bool.not_eq_true] at hstop
          rw [if_neg (by simp [hstop]), scanFilter_empty_of_stop g start stop (hin g hg) hstop]
      rw [hmapeq, ← scanFilter_flatten, hflat]

theorem findLk_self : ∀ (entries : List SRec),
    (entries.Pairwise fun a b => ltB a.key b.key = true) →
    ∀ r ∈ entries, r.kind = 1 → findLk entries r.key = some (r.value, r.seq) := by
  intro entries
  induction entries with
  | nil =>
    intro _ r hr
    cases hr
  | cons e rest ih =>
    intro hsorted r hr hk
    rcases List.pairwise_cons.mp hsorted with ⟨hhead, htail⟩
    rcases List.mem_cons.mp hr with rfl | h2
    · rw [findLk, @List.find?_cons_of_pos _ (fun x => x.key == r.key && x.kind == 1) r rest
        (by simp [hk])]
      rfl
    · have hne : e.key ≠ r.key := ne_of_ltB (hhead r h2)
      rw [findLk, @List.find?_cons_of_neg _ (fun x => x.key == r.key && x.kind == 1) e rest
        (by simp [hne])]
      exact ih htail r h2 hk

theorem findLk_none_of_kind2 : ∀ (entries : List SRec),
    (entries.Pairwise fun a b => ltB a.key b.key = true) →
    ∀ t ∈ entries, t.kind = 2 → findLk entries t.key = none := by
  intro entries
  induction entries with
  | nil =>
    intro _ t ht
    cases ht
  | cons e rest ih =>
    intro hsorted t ht hk
    rcases List.pairwise_cons.mp hsorted with ⟨hhead, htail⟩
    rcases List.mem_cons.mp ht with rfl | h2
    · rw [findLk, @List.find?_cons_of_neg _ (fun x => x.key == t.key && x.kind == 1) t rest
        (by simp [hk])]
      have hrest : rest.find? (fun x => x.key == t.key && x.kind == 1) = none := by
        rw [List.find?_eq_none]
        intro x hx
        have hne : x.key ≠ t.key := (ne_of_ltB (hhead x hx)).symm
        simp [hne]
      rw [hrest]
      rfl
    · have hne : e.key ≠ t.key := ne_of_ltB (hhead t h2)
      rw [findLk, @List.find?_cons_of_neg _ (fun x => x.key == t.key && x.kind == 1) e rest
        (by simp [hne])]
      exact ih htail t h2 hk

/-- C6 (amended): a segment built by `SegmentWriter` from `SET` records added
in strictly ascending key order round-trips on the lookup side — `lookup` of
each added key returns exactly its `(value, seq)` — and every scan output is
in ascending key order; but a scan over `[start, stop)` yields exactly the
added entries in that range only under the additional premise that `start`
is at most every added key. Without it, `scan_segment` skips any data block
whose index key precedes `start`, silently dropping in-range records stored
behind a smaller block-head key (see the counterexample). -/
theorem segment_round_trip (entries : List SRec) (start stop : List Nat)
    (hwf : ∀ r ∈ entries, wfRec r)
    (hsorted : entries.Pairwise fun a b => ltB a.key b.key = true)
    (hkind : ∀ r ∈ entries, r.kind = 1) :
    (∀ r ∈ entries, lookupSeg (buildSeg entries) r.key = .ok (some (r.value, r.seq))) ∧
    ((scanFilter entries start stop).Pairwise fun a b => ltB a.1 b.1 = true) ∧
    ((∀ r ∈ entries, leB start r.key = true) →
      scanSeg (buildSeg entries) start stop = .ok (scanFilter entries start stop)) := by
  refine ⟨?_, ?_, ?_⟩
  · intro r hr
    rw [lookupSeg_buildSeg entries r.key hwf hsorted,
      findLk_self entries hsorted r hr (hkind r hr)]
  · rw [scanFilter, List.pairwise_map]
    exact hsorted.filter _
  · intro hstart
    obtain ⟨out, hout, _, heq⟩ := scanSeg_buildSeg_spec entries start stop hwf hsorted
    rw [hout, heq hstart]

set_option maxRecDepth 1000000 in
/-- Witness for C6 at a concrete two-record segment. -/
theorem segment_round_trip_witness :
    lookupSeg (buildSeg [⟨1, [97], [120], 5⟩, ⟨1, [99], [121], 6⟩]) [99] =
      .ok (some ([121], 6)) ∧
    scanSeg (buildSeg [⟨1, [97], [120], 5⟩, ⟨1, [99], [121], 6⟩]) [97] [100] =
      .ok [([97], [120], 5), ([99], [121], 6)] := by
  have h := segment_round_trip [⟨1, [97], [120], 5⟩, ⟨1, [99], [121], 6⟩] [97] [100]
    (by simp only [wfRec]; decide) (by decide) (by decide)
  refine ⟨?_, ?_⟩
  · exact h.1 ⟨1, [99], [121], 6⟩ (by decide)
  · exact (h.2.2 (by decide)).trans (by decide)

set_option maxRecDepth 1000000 in
/-- C6 counterexample to the unamended claim: two sorted well-formed `SET`
records land in one data block headed by key `[97]`; a scan over
`[[98], [100])` should yield the in-range record with key `[99]` (third
conjunct), but `scan_segment` skips the whole block because its index key
`[97]` precedes the scan start, and returns nothing (fourth conjunct). -/
theorem scan_misses_block_spanning_start :
    (∀ r ∈ [(⟨1, [97], [120], 1⟩ : SRec), ⟨1, [99], [121], 2⟩], wfRec r ∧ r.kind = 1) ∧
    ([(⟨1, [97], [120], 1⟩ : SRec), ⟨1, [99], [121], 2⟩].Pairwise
      fun a b => ltB a.key b.key = true) ∧
    scanFilter [⟨1, [97], [120], 1⟩, ⟨1, [99], [121], 2⟩] [98] [100] = [([99], [121], 2)] ∧
    scanSeg (buildSeg [⟨1, [97], [120], 1⟩, ⟨1, [99], [121], 2⟩]) [98] [100] = .ok [] :=
  ⟨by simp only [wfRec]; decide, by decide, by decide, by decide⟩

/-- C7 (amended): in a segment built from sorted well-formed records, lookup
of a key whose record is a point tombstone (`DEL_POINT`, kind 2) returns
`Ok(None)` — "not found here", exactly as the claim says — but the tombstone
does NOT surface to scans: `scan_segment` collects only `SET` records
(`rt == RT_SET`), so no scan output over any range ever carries the
tombstone's key, and the merge has no seq to mask older records with. -/
theorem tombstone_lookup_scan (entries : List SRec) (t : SRec)
    (hwf : ∀ r ∈ entries, wfRec r)
    (hsorted : entries.Pairwise fun a b => ltB a.key b.key = true)
    (ht : t ∈ entries) (htk : t.kind = 2) :
    lookupSeg (buildSeg entries) t.key = .ok none ∧
    ∀ start stop out, scanSeg (buildSeg entries) start stop = .ok out →
      ∀ e ∈ out, e.1 ≠ t.key := by
  constructor
  · rw [lookupSeg_buildSeg entries t.key hwf hsorted,
      findLk_none_of_kind2 entries hsorted t ht htk]
  · intro start stop out hscan e he
    obtain ⟨out2, hout2, hmem, _⟩ := scanSeg_buildSeg_spec entries start stop hwf hsorted
    rw [hout2] at hscan
    have hoo : out2 = out := Except.ok.inj hscan
    rw [← hoo] at he
    obtain ⟨r, hr, hk1, _, _, rfl⟩ := hmem e he
    intro hh
    rcases pairwise_cases hsorted r hr t ht with rfl | hlt | hlt
    · omega
    · exact ne_of_ltB hlt hh
    · exact ne_of_ltB hlt hh.symm

set_option maxRecDepth 1000000 in
/-- Witness for C7 at a concrete segment holding a `SET` for `[97]` and a
`DEL_POINT` tombstone for `[98]`. -/
theorem tombstone_lookup_scan_witness :
    lookupSeg (buildSeg [⟨1, [97], [120], 1⟩, ⟨2, [98], [], 3⟩]) [98] = .ok none ∧
    ∀ e ∈ [(([97], [120], 1) : List Nat × List Nat × Nat)], e.1 ≠ [98] := by
  have h := tombstone_lookup_scan [⟨1, [97], [120], 1⟩, ⟨2, [98], [], 3⟩] ⟨2, [98], [], 3⟩
    (by simp only [wfRec]; decide) (by decide) (by decide) (by decide)
  exact ⟨h.1, fun e he => h.2 [97] [123] [([97], [120], 1)] (by decide) e he⟩

set_option maxRecDepth 1000000 in
/-- C7 counterexample to the unamended claim's scan half: a scan over
`[[97], [123])` of a segment holding a `SET` for `[97]` and a tombstone for
`[98]` with `seq 3` yields only the `SET`; the tombstone record and its seq
are absent from the merged scan, so it cannot mask older records there. -/
theorem scan_omits_tombstone :
    scanSeg (buildSeg [⟨1, [97], [120], 1⟩, ⟨2, [98], [], 3⟩]) [97] [123] =
      .ok [([97], [120], 1)] := by
  decide

end Antler
